import Mathlib

/-!
Verification of the CEVRP solver (MMAS construction + ALNS repair).

This file gives a shallow embedding of the solver's data model and of the
operations referenced by the specification: the graph API
(`Shared/graph_api.py`), the solution state and its path-energy computation
(`ALNS_METAHEURISTIC/solution_state.py`, `destroy_functions.py`), the
local-search kit (`Shared/heuristic.py`), the destroy and repair operators
(`ALNS_METAHEURISTIC/destroy_operators.py`, `repair_operators.py`,
`repair_functions.py`), and the MMAS pheromone operators
(`MMAS/pheromone_operators.py`).

Numbers: edge costs, energies and pheromone values are embedded as rationals;
demands are integers (the `Path.demand` setter coerces to `int`).  Node keys
are strings; the depot key is the literal "1" (`Shared/config.py`,
`DEFAULT_SOURCE_NODE`).
-/

namespace CEVRP

/-- Attributes stored on a directed edge of the `networkx.DiGraph`: the
`cost` and `pheromones` keys of the edge's attribute dictionary, each of
which may be absent. -/
structure EdgeAttrs where
  cost : Option ℚ
  pheromones : Option ℚ
deriving DecidableEq

/-- The directed graph, embedded as an association list from ordered node
pairs to edge attributes (first match wins, mirroring the unique-key edge
dictionary of `networkx`). -/
abbrev Graph := List ((String × String) × EdgeAttrs)

/-- First-match association lookup over the edge list. -/
def edgeLookup : Graph → String × String → Option EdgeAttrs
  | [], _ => none
  | e :: rest, k => if e.1 = k then some e.2 else edgeLookup rest k

/-- `GraphApi.graph.has_edge(u, v)`. -/
def has_edge (g : Graph) (u v : String) : Bool :=
  (edgeLookup g (u, v)).isSome

/-- `GraphApi.get_edge_cost`: the `cost` attribute of the edge, with `0.0`
both when the edge is absent and when the attribute is absent
(`self.graph[u][v].get("cost", 0.0)`). -/
def get_edge_cost (g : Graph) (u v : String) : ℚ :=
  match edgeLookup g (u, v) with
  | some a => a.cost.getD 0
  | none => 0

/-- `GraphApi.get_edge_pheromones`: the `pheromones` attribute, defaulting
to `0.0` when the edge or the attribute is absent. -/
def get_edge_pheromones (g : Graph) (u v : String) : ℚ :=
  match edgeLookup g (u, v) with
  | some a => a.pheromones.getD 0
  | none => 0

/-- `GraphApi.set_edge_pheromones`: writes the `pheromones` attribute when
the edge exists and silently does nothing otherwise. -/
def set_edge_pheromones (g : Graph) (u v : String) (x : ℚ) : Graph :=
  if has_edge g u v then
    g.map (fun e => if e.1 = (u, v) then (e.1, { e.2 with pheromones := some x }) else e)
  else g

/-- `GraphApi.deposit_pheromones`: same body as `set_edge_pheromones`. -/
def deposit_pheromones (g : Graph) (u v : String) (x : ℚ) : Graph :=
  set_edge_pheromones g u v x

/-- `GraphApi.calculate_path_cost`: sum of `get_edge_cost` over consecutive
pairs of the node sequence. -/
def calculate_path_cost (g : Graph) (nodes : List String) : ℚ :=
  (nodes.zip nodes.tail).foldl (fun c p => c + get_edge_cost g p.1 p.2) 0

/-- `GraphApi.calculate_edge_energy_consumption`: edge cost times the
instance's per-distance consumption factor `h`. -/
def calculate_edge_energy_consumption (g : Graph) (u v : String) (h : ℚ) : ℚ :=
  get_edge_cost g u v * h

/-- Node demands (the `demand` node attribute), as an association list. -/
abbrev Demands := List (String × ℤ)

/-- First-match association lookup over the demand table. -/
def demandLookup : Demands → String → Option ℤ
  | [], _ => none
  | d :: rest, k => if d.1 = k then some d.2 else demandLookup rest k

/-- `GraphApi.get_demand_node`: `self.graph.nodes[node].get('demand', 0)`. -/
def get_demand_node (dm : Demands) (node : String) : ℤ :=
  (demandLookup dm node).getD 0

/-- `GraphApi.get_total_demand_path`: sum of node demands over the sequence. -/
def get_total_demand_path (dm : Demands) (nodes : List String) : ℤ :=
  nodes.foldl (fun t n => t + get_demand_node dm n) 0

/-- Loop body of `CevrpState.calculate_path_energy`: walks the consecutive
pairs carrying the running energy, which is replaced by the single edge
energy (a reset) whenever the pair's first node is a charging station, and
accumulated otherwise.  The final accumulator is returned. -/
def cpeAux (g : Graph) (h : ℚ) (stations : List String) :
    ℚ → String → List String → ℚ
  | energy, _, [] => energy
  | energy, prev, curr :: rest =>
    let e := calculate_edge_energy_consumption g prev curr h
    cpeAux g h stations (if prev ∈ stations then e else energy + e) curr rest

/-- `CevrpState.calculate_path_energy`: "total energy usage for a path with
resets at charging stations"; the value actually returned is the final
accumulator, i.e. the energy accumulated since the last reset. -/
def calculate_path_energy (g : Graph) (h : ℚ) (stations : List String) :
    List String → ℚ
  | [] => 0
  | x :: xs => cpeAux g h stations 0 x xs

/-- `is_path_valid` (`ALNS_METAHEURISTIC/destroy_functions.py`): depot
anchoring at both ends, total demand at most the cargo capacity `Q`, and
`calculate_path_energy` at most the battery capacity `B`.  The source
indexes `nodes[0]` and `nodes[-1]`, so the empty sequence (which would raise
an `IndexError`) is embedded as invalid. -/
def is_path_valid (g : Graph) (dm : Demands) (stations : List String)
    (Q : ℤ) (B h : ℚ) (nodes : List String) : Bool :=
  match nodes.head?, nodes.getLast? with
  | some a, some b =>
    if a ≠ "1" ∨ b ≠ "1" then false
    else if get_total_demand_path dm nodes > Q then false
    else decide (calculate_path_energy g h stations nodes ≤ B)
  | _, _ => false

/-- Modelled from the spec: `path_energy` as the specification states it,
"the maximum instantaneous battery usage between anchors", with the energy
resetting to 0 at the depot and at every station visit.  Used only to
compare the specification's formulation against `calculate_path_energy`. -/
def path_energy_specMax (g : Graph) (h : ℚ) (stations : List String)
    (nodes : List String) : ℚ :=
  ((nodes.zip nodes.tail).foldl
    (fun (acc : ℚ × ℚ) p =>
      let e := calculate_edge_energy_consumption g p.1 p.2 h
      let cur := if p.1 ∈ stations ∨ p.1 = "1" then e else acc.1 + e
      (cur, max acc.2 cur))
    (0, 0)).2

/-- Shorthand for an edge that carries only a cost attribute. -/
def ce (c : ℚ) : EdgeAttrs := ⟨some c, none⟩

/-- Concrete three-edge instance exercising an intermediate station reset:
the two legs before the station `"s"` each cost 100, the leg after it
costs 1. -/
def gC1 : Graph := [(("1", "a"), ce 100), (("a", "s"), ce 100), (("s", "1"), ce 1)]

/-- Demand table for `gC1`: customer `"a"` has demand 1. -/
def dmC1 : Demands := [("a", 1)]

/-- Splitting lemma for the energy loop: processing `xs ++ ys` equals
processing `xs` first and continuing on `ys` from the last node reached. -/
lemma cpeAux_append (g : Graph) (h : ℚ) (st : List String) (xs ys : List String) :
    ∀ (E : ℚ) (prev : String),
      cpeAux g h st E prev (xs ++ ys) =
      cpeAux g h st (cpeAux g h st E prev xs) ((prev :: xs).getLast (by simp)) ys := by
  induction xs with
  | nil => intro E prev; simp [cpeAux]
  | cons x xs ih =>
    intro E prev
    simp only [List.cons_append, cpeAux, List.append_eq]
    rw [ih]
    congr 1

/-- C1, counterexample.  On the route `[1, a, s, 1]` with edge energies
100, 100, 1 and battery capacity `B = 50`, the state's path-energy
computation returns `1` (the final segment only), while the maximum
instantaneous usage between anchors is `200 > B`; the sequence is
nevertheless judged energy-feasible, so `path_energy` is not the
between-anchor maximum and feasibility is not `max ≤ B`. -/
theorem c1Counterexample :
    is_path_valid gC1 dmC1 ["s"] 10 50 1 ["1", "a", "s", "1"] = true ∧
    calculate_path_energy gC1 1 ["s"] ["1", "a", "s", "1"] = 1 ∧
    path_energy_specMax gC1 1 ["s"] ["1", "a", "s", "1"] = 200 ∧
    ¬ path_energy_specMax gC1 1 ["s"] ["1", "a", "s", "1"] ≤ 50 := by
  have henergy : calculate_path_energy gC1 1 ["s"] ["1", "a", "s", "1"] = 1 := by
    simp [calculate_path_energy, cpeAux, calculate_edge_energy_consumption,
      get_edge_cost, edgeLookup, gC1, ce]
  have hmax : path_energy_specMax gC1 1 ["s"] ["1", "a", "s", "1"] = 200 := by
    simp [path_energy_specMax, calculate_edge_energy_consumption,
      get_edge_cost, edgeLookup, gC1, ce]
    norm_num
  refine ⟨?_, henergy, hmax, by rw [hmax]; norm_num⟩
  simp [is_path_valid, get_total_demand_path, get_demand_node, demandLookup, dmC1, henergy]

/-- C1, amended.  `calculate_path_energy` returns the energy accumulated
since the last reset: any prefix before a station visit is discarded, so
for a sequence with an intermediate station the judgment depends only on
the segment after the last reset (contrary to the between-anchor-maximum
contract stated by the specification). -/
theorem calculate_path_energy_after_reset (g : Graph) (h : ℚ) (stations : List String)
    (pre : List String) (s : String) (rest : List String)
    (hs : s ∈ stations) (hrest : rest ≠ []) :
    calculate_path_energy g h stations (pre ++ s :: rest) =
    calculate_path_energy g h stations (s :: rest) := by
  cases pre with
  | nil => rfl
  | cons p ps =>
    cases rest with
    | nil => exact absurd rfl hrest
    | cons r rest =>
      have hsplit : (p :: ps) ++ s :: r :: rest = p :: ((ps ++ [s]) ++ (r :: rest)) := by
        simp
      rw [hsplit]
      show cpeAux g h stations 0 p ((ps ++ [s]) ++ (r :: rest)) = _
      rw [cpeAux_append]
      have hlast : (p :: (ps ++ [s])).getLast (by simp) = s := by
        simp [List.getLast_append]
      rw [hlast]
      show cpeAux g h stations _ s (r :: rest) = cpeAux g h stations 0 s (r :: rest)
      simp only [cpeAux, hs, if_pos, zero_add]

/-- C1, witness for the amended theorem: on the concrete instance `gC1`,
dropping the prefix `[1, a]` before the station `"s"` leaves the computed
path energy unchanged. -/
theorem c1AmendedWitness :
    ("s" ∈ ["s"] ∧ (["1"] : List String) ≠ []) ∧
    calculate_path_energy gC1 1 ["s"] (["1", "a"] ++ "s" :: ["1"]) =
      calculate_path_energy gC1 1 ["s"] ("s" :: ["1"]) :=
  ⟨⟨by simp, by simp⟩,
    calculate_path_energy_after_reset gC1 1 ["s"] ["1", "a"] "s" ["1"] (by simp) (by simp)⟩

/-- C10.  The edge queries are total: on an absent edge `get_edge_cost`
and `get_edge_pheromones` return 0 instead of failing, and
`set_edge_pheromones` leaves the graph unchanged. -/
theorem c10EdgeQueriesTotal (g : Graph) (u v : String) (x : ℚ)
    (habs : has_edge g u v = false) :
    get_edge_cost g u v = 0 ∧ get_edge_pheromones g u v = 0 ∧
    set_edge_pheromones g u v x = g := by
  have hnone : edgeLookup g (u, v) = none := by
    cases hl : edgeLookup g (u, v) with
    | none => rfl
    | some a => rw [has_edge, hl] at habs; simp at habs
  refine ⟨?_, ?_, ?_⟩ <;>
    simp [get_edge_cost, get_edge_pheromones, set_edge_pheromones, hnone, habs]

/-- C10, witness: the queries on the one-edge graph `gC1` at the absent
edge `("a", "b")`. -/
theorem c10Witness :
    get_edge_cost gC1 "a" "b" = 0 ∧ get_edge_pheromones gC1 "a" "b" = 0 ∧
    set_edge_pheromones gC1 "a" "b" 5 = gC1 :=
  c10EdgeQueriesTotal gC1 "a" "b" 5 (by simp [has_edge, edgeLookup, gC1])

/-- A route (`Shared/path.py`): the node sequence plus its stored metrics.
The `minimum_stations` and `max_energy_needed` attributes are never read by
the operators under study and are omitted. -/
structure Path where
  nodes : List String
  path_cost : ℚ
  demand : ℤ
  energy : ℚ
  feasible : Bool
deriving DecidableEq

/-- The 2-opt move of `apply_2opt` (`Shared/heuristic.py`): reverse the
segment `nodes[i..j]`, keeping the pieces before `i` and after `j`
(`x + reversed_y + z`). -/
def two_opt_candidate (nodes : List String) (i j : ℕ) : List String :=
  nodes.take i ++ ((nodes.drop i).take (j + 1 - i)).reverse ++ nodes.drop (j + 1)

/-- Inner-loop body of `apply_2opt`: replace the best route found so far
exactly when the candidate's path cost is strictly smaller. -/
def two_opt_step (g : Graph) (nodes : List String) (best : List String × ℚ)
    (ij : ℕ × ℕ) : List String × ℚ :=
  let newRoute := two_opt_candidate nodes ij.1 ij.2
  let newCost := calculate_path_cost g newRoute
  if newCost < best.2 then (newRoute, newCost) else best

/-- The index pairs visited by `apply_2opt`'s double loop:
`for i in range(1, n-1): for j in range(i+1, n-1)`. -/
def two_opt_pairs (n : ℕ) : List (ℕ × ℕ) :=
  (List.range' 1 (n - 2)).flatMap
    (fun i => (List.range' (i + 1) (n - 2 - i)).map (fun j => (i, j)))

/-- `apply_2opt` (`Shared/heuristic.py`): starts from the stored route and
cost, scans every `(i, j)` reversal, keeps the strictly cheapest route
found, and returns the path with the winning nodes and cost (no energy or
demand check appears anywhere in the loop). -/
def apply_2opt (g : Graph) (path : Path) : Path :=
  if path.nodes.length < 3 then path
  else
    let r := (two_opt_pairs path.nodes.length).foldl (two_opt_step g path.nodes)
      (path.nodes, path.path_cost)
    { path with nodes := r.1, path_cost := r.2 }

/-- Invariant of the 2-opt fold: the kept cost never increases, and it
strictly decreases whenever the kept route changes. -/
lemma two_opt_foldl_spec (g : Graph) (nodes : List String) (l : List (ℕ × ℕ)) :
    ∀ best : List String × ℚ,
      (l.foldl (two_opt_step g nodes) best).2 ≤ best.2 ∧
      ((l.foldl (two_opt_step g nodes) best).1 ≠ best.1 →
        (l.foldl (two_opt_step g nodes) best).2 < best.2) := by
  induction l with
  | nil => intro best; exact ⟨le_refl _, fun hne => absurd rfl hne⟩
  | cons a t ih =>
    intro best
    simp only [List.foldl_cons]
    by_cases hlt :
        calculate_path_cost g (two_opt_candidate nodes a.1 a.2) < best.2
    · have hstep : two_opt_step g nodes best a =
          (two_opt_candidate nodes a.1 a.2,
            calculate_path_cost g (two_opt_candidate nodes a.1 a.2)) := by
        simp [two_opt_step, hlt]
      rw [hstep]
      refine ⟨le_of_lt (lt_of_le_of_lt (ih _).1 hlt), fun _ => lt_of_le_of_lt (ih _).1 hlt⟩
    · have hstep : two_opt_step g nodes best a = best := by
        simp [two_opt_step, hlt]
      rw [hstep]
      exact ih best

/-- Concrete four-node instance for 2-opt: the reversal `[1,s,a,b,1]` of
`[1,a,s,b,1]` is strictly cheaper (12 < 22) but, with the station reset at
`"s"`, its post-reset energy is 11 while the original's is 2. -/
def gC2 : Graph :=
  [(("1", "a"), ce 10), (("a", "s"), ce 10), (("s", "b"), ce 1), (("b", "1"), ce 1),
   (("1", "s"), ce 1), (("s", "a"), ce 5), (("a", "b"), ce 5),
   (("1", "b"), ce 100), (("b", "s"), ce 100), (("a", "1"), ce 100), (("s", "1"), ce 100)]

/-- Stored route for the 2-opt counterexample (cost 22, energy 2). -/
def pC2 : Path := ⟨["1", "a", "s", "b", "1"], 22, 0, 2, true⟩

/-- Evaluation of `apply_2opt` on the concrete instance: the winning move
is the `(1, 2)` reversal. -/
lemma apply_2opt_gC2_eval :
    apply_2opt gC2 pC2 = ⟨["1", "s", "a", "b", "1"], 12, 0, 2, true⟩ := by
  have hpairs : two_opt_pairs 5 = [(1, 2), (1, 3), (2, 3)] := by rfl
  have hc1 : two_opt_candidate ["1", "a", "s", "b", "1"] 1 2 = ["1", "s", "a", "b", "1"] := by rfl
  have hc2 : two_opt_candidate ["1", "a", "s", "b", "1"] 1 3 = ["1", "b", "s", "a", "1"] := by rfl
  have hc3 : two_opt_candidate ["1", "a", "s", "b", "1"] 2 3 = ["1", "a", "b", "s", "1"] := by rfl
  have hcost1 : calculate_path_cost gC2 ["1", "s", "a", "b", "1"] = 12 := by
    simp [calculate_path_cost]
    simp [get_edge_cost, edgeLookup, gC2, ce]
    norm_num
  have hcost2 : calculate_path_cost gC2 ["1", "b", "s", "a", "1"] = 305 := by
    simp [calculate_path_cost]
    simp [get_edge_cost, edgeLookup, gC2, ce]
    norm_num
  have hcost3 : calculate_path_cost gC2 ["1", "a", "b", "s", "1"] = 215 := by
    simp [calculate_path_cost]
    simp [get_edge_cost, edgeLookup, gC2, ce]
    norm_num
  have hs1 : two_opt_step gC2 ["1", "a", "s", "b", "1"] (["1", "a", "s", "b", "1"], 22) (1, 2)
      = (["1", "s", "a", "b", "1"], 12) := by
    simp only [two_opt_step, hc1, hcost1]
    norm_num
  have hs2 : two_opt_step gC2 ["1", "a", "s", "b", "1"] (["1", "s", "a", "b", "1"], 12) (1, 3)
      = (["1", "s", "a", "b", "1"], 12) := by
    simp only [two_opt_step, hc2, hcost2]
    norm_num
  have hs3 : two_opt_step gC2 ["1", "a", "s", "b", "1"] (["1", "s", "a", "b", "1"], 12) (2, 3)
      = (["1", "s", "a", "b", "1"], 12) := by
    simp only [two_opt_step, hc3, hcost3]
    norm_num
  unfold apply_2opt
  simp only [pC2]
  norm_num [hpairs, hs1, hs2, hs3]

/-- C2, counterexample.  With battery capacity `B = 5`, `apply_2opt`
accepts the strictly-improving `(1, 2)` reversal even though the resulting
route is energy-infeasible (post-reset energy 11 > 5) while the input route
was energy-feasible (energy 2): the 2-opt operator does not require the
route to remain energy-feasible. -/
theorem c2Counterexample :
    calculate_path_energy gC2 1 ["s"] pC2.nodes ≤ 5 ∧
    (apply_2opt gC2 pC2).nodes ≠ pC2.nodes ∧
    (apply_2opt gC2 pC2).path_cost < pC2.path_cost ∧
    ¬ calculate_path_energy gC2 1 ["s"] (apply_2opt gC2 pC2).nodes ≤ 5 := by
  have h1 : calculate_path_energy gC2 1 ["s"] ["1", "a", "s", "b", "1"] = 2 := by
    simp [calculate_path_energy, cpeAux, calculate_edge_energy_consumption]
    simp [get_edge_cost, edgeLookup, gC2, ce]
    norm_num
  have h2 : calculate_path_energy gC2 1 ["s"] ["1", "s", "a", "b", "1"] = 11 := by
    simp [calculate_path_energy, cpeAux, calculate_edge_energy_consumption]
    simp [get_edge_cost, edgeLookup, gC2, ce]
    norm_num
  rw [apply_2opt_gC2_eval]
  refine ⟨?_, by simp [pC2], by simp [pC2]; norm_num, ?_⟩
  · show calculate_path_energy gC2 1 ["s"] ["1", "a", "s", "b", "1"] ≤ 5
    rw [h1]; norm_num
  · show ¬ calculate_path_energy gC2 1 ["s"] ["1", "s", "a", "b", "1"] ≤ 5
    rw [h2]; norm_num

/-- `GraphApi.calculate_path_energy_consumption`: whole-path cost times
the consumption factor (used only to seed `best_energy` in the swap/insert
operators; never compared against a bound). -/
def calculate_path_energy_consumption (g : Graph) (nodes : List String) (h : ℚ) : ℚ :=
  calculate_path_cost g nodes * h

/-- In-place swap of two list positions. -/
def listSwap (l : List String) (i j : ℕ) : List String :=
  (l.set i (l.getD j "")).set j (l.getD i "")

/-- `new_route.insert(j, new_route.pop(i))`. -/
def insertMove (l : List String) (i j : ℕ) : List String :=
  let x := l.getD i ""
  let l2 := l.take i ++ l.drop (i + 1)
  l2.take j ++ x :: l2.drop j

/-- Candidate routes of `adjacent_swap`
(`ALNS_METAHEURISTIC/repair_operators.py`): swap positions `i, i+1` of the
original nodes, for `i in range(1, len(nodes) - 2)`. -/
def adjacent_swap_candidates (nodes : List String) : List (List String) :=
  (List.range' 1 (nodes.length - 3)).map (fun i => listSwap nodes i (i + 1))

/-- Candidate routes of `general_swap`: swap non-consecutive positions
`i, j` for `i in range(1, len-3)`, `j in range(i+2, len-1)`. -/
def general_swap_candidates (nodes : List String) : List (List String) :=
  (List.range' 1 (nodes.length - 4)).flatMap (fun i =>
    (List.range' (i + 2) (nodes.length - 1 - (i + 2))).map (fun j => listSwap nodes i j))

/-- Candidate routes of `single_insertion`: `new_route.insert(j,
new_route.pop(i))` for `i, j in range(1, len-1)`, `i != j`. -/
def single_insertion_candidates (nodes : List String) : List (List String) :=
  (List.range' 1 (nodes.length - 2)).flatMap (fun i =>
    (List.range' 1 (nodes.length - 2)).filterMap (fun j =>
      if i ≠ j then some (insertMove nodes i j) else none))

/-- Candidate routes of `block_insertion`:
`nodes[:i] + nodes[i+b:j+1] + nodes[i:i+b] + nodes[j+1:]` for
`b in range(2, len-3)`, `i in range(1, len-1-b)`, `j in range(i+b, len-1)`. -/
def block_insertion_candidates (nodes : List String) : List (List String) :=
  (List.range' 2 (nodes.length - 5)).flatMap (fun b =>
    (List.range' 1 (nodes.length - 1 - b - 1)).flatMap (fun i =>
      (List.range' (i + b) (nodes.length - 1 - (i + b))).map (fun j =>
        nodes.take i ++ ((nodes.drop (i + b)).take (j + 1 - (i + b)))
          ++ ((nodes.drop i).take b) ++ nodes.drop (j + 1))))

/-- Candidate routes of `reverse_location`: reverse the segment `[i..j]`
(`nodes[j:i-1:-1]`) for `i in range(1, len-3)`, `j in range(i+2, len-1)`. -/
def reverse_location_candidates (nodes : List String) : List (List String) :=
  (List.range' 1 (nodes.length - 4)).flatMap (fun i =>
    (List.range' (i + 2) (nodes.length - 1 - (i + 2))).map (fun j =>
      two_opt_candidate nodes i j))

/-- Shared accept step of the five repair-operator local searches: keep
the candidate exactly when `new_cost < best_cost and new_energy <= bound`
(`bound` is `cevrp.capacity` in `adjacent_swap` and
`cevrp.energy_capacity` in the four others). -/
def ls_step (g : Graph) (h : ℚ) (stations : List String) (bound : ℚ)
    (best : List String × ℚ × ℚ) (cand : List String) : List String × ℚ × ℚ :=
  let new_cost := calculate_path_cost g cand
  let new_energy := calculate_path_energy g h stations cand
  if new_cost < best.2.1 ∧ new_energy ≤ bound then (cand, new_cost, new_energy) else best

/-- Per-route body of `adjacent_swap`: best over the adjacent swaps,
starting from the stored cost and energy; the produced `Path` copies the
route's demand unchanged and sets `feasible=True`. -/
def adjacent_swap_path (g : Graph) (h : ℚ) (stations : List String) (Q : ℚ)
    (p : Path) : Path :=
  let r := (adjacent_swap_candidates p.nodes).foldl (ls_step g h stations Q)
    (p.nodes, p.path_cost, p.energy)
  ⟨r.1, r.2.1, p.demand, r.2.2, true⟩

/-- Per-route body of `general_swap` (recomputed initial cost, bound `B`). -/
def general_swap_path (g : Graph) (h : ℚ) (stations : List String) (B : ℚ)
    (p : Path) : Path :=
  let r := (general_swap_candidates p.nodes).foldl (ls_step g h stations B)
    (p.nodes, calculate_path_cost g p.nodes, calculate_path_energy_consumption g p.nodes h)
  ⟨r.1, r.2.1, p.demand, r.2.2, true⟩

/-- Per-route body of `single_insertion`. -/
def single_insertion_path (g : Graph) (h : ℚ) (stations : List String) (B : ℚ)
    (p : Path) : Path :=
  let r := (single_insertion_candidates p.nodes).foldl (ls_step g h stations B)
    (p.nodes, calculate_path_cost g p.nodes, calculate_path_energy_consumption g p.nodes h)
  ⟨r.1, r.2.1, p.demand, r.2.2, true⟩

/-- Per-route body of `block_insertion`. -/
def block_insertion_path (g : Graph) (h : ℚ) (stations : List String) (B : ℚ)
    (p : Path) : Path :=
  let r := (block_insertion_candidates p.nodes).foldl (ls_step g h stations B)
    (p.nodes, calculate_path_cost g p.nodes, calculate_path_energy_consumption g p.nodes h)
  ⟨r.1, r.2.1, p.demand, r.2.2, true⟩

/-- Per-route body of `reverse_location`. -/
def reverse_location_path (g : Graph) (h : ℚ) (stations : List String) (B : ℚ)
    (p : Path) : Path :=
  let r := (reverse_location_candidates p.nodes).foldl (ls_step g h stations B)
    (p.nodes, calculate_path_cost g p.nodes, calculate_path_energy_consumption g p.nodes h)
  ⟨r.1, r.2.1, p.demand, r.2.2, true⟩

/-- Acceptance invariant of the shared fold: the kept cost never
increases, and whenever the kept route changed, the final cost strictly
decreased and the kept route's recomputed energy is within the bound. -/
lemma ls_foldl_spec (g : Graph) (h : ℚ) (stations : List String) (bound : ℚ)
    (l : List (List String)) : ∀ best : List String × ℚ × ℚ,
      (l.foldl (ls_step g h stations bound) best).2.1 ≤ best.2.1 ∧
      ((l.foldl (ls_step g h stations bound) best).1 ≠ best.1 →
        (l.foldl (ls_step g h stations bound) best).2.1 < best.2.1 ∧
        calculate_path_energy g h stations
          (l.foldl (ls_step g h stations bound) best).1 ≤ bound) := by
  induction l with
  | nil => intro best; exact ⟨le_refl _, fun hne => absurd rfl hne⟩
  | cons a t ih =>
    intro best
    simp only [List.foldl_cons]
    by_cases hacc : calculate_path_cost g a < best.2.1 ∧
        calculate_path_energy g h stations a ≤ bound
    · have hstep : ls_step g h stations bound best a =
          (a, calculate_path_cost g a, calculate_path_energy g h stations a) := by
        simp [ls_step, hacc]
      rw [hstep]
      constructor
      · exact le_of_lt (lt_of_le_of_lt (ih _).1 hacc.1)
      · intro _
        refine ⟨lt_of_le_of_lt (ih _).1 hacc.1, ?_⟩
        by_cases hch : (t.foldl (ls_step g h stations bound)
            (a, calculate_path_cost g a, calculate_path_energy g h stations a)).1 = a
        · rw [hch]
          exact hacc.2
        · exact ((ih _).2 hch).2
    · have hstep : ls_step g h stations bound best a = best := by
        simp only [ls_step]
        rw [if_neg hacc]
      rw [hstep]
      exact ih best


/-- Evaluation of `adjacent_swap_path` on the concrete 2-opt instance with
cargo capacity 100: the `(1, 2)` swap is accepted. -/
lemma adjacent_swap_gC2_eval :
    adjacent_swap_path gC2 1 ["s"] 100 pC2 = ⟨["1", "s", "a", "b", "1"], 12, 0, 11, true⟩ := by
  have hcands : adjacent_swap_candidates ["1", "a", "s", "b", "1"]
      = [["1", "s", "a", "b", "1"], ["1", "a", "b", "s", "1"]] := by rfl
  have hcost1 : calculate_path_cost gC2 ["1", "s", "a", "b", "1"] = 12 := by
    simp [calculate_path_cost]
    simp [get_edge_cost, edgeLookup, gC2, ce]
    norm_num
  have hcost2 : calculate_path_cost gC2 ["1", "a", "b", "s", "1"] = 215 := by
    simp [calculate_path_cost]
    simp [get_edge_cost, edgeLookup, gC2, ce]
    norm_num
  have hen1 : calculate_path_energy gC2 1 ["s"] ["1", "s", "a", "b", "1"] = 11 := by
    simp [calculate_path_energy, cpeAux, calculate_edge_energy_consumption]
    simp [get_edge_cost, edgeLookup, gC2, ce]
    norm_num
  have hs1 : ls_step gC2 1 ["s"] 100 (["1", "a", "s", "b", "1"], 22, 2)
      ["1", "s", "a", "b", "1"] = (["1", "s", "a", "b", "1"], 12, 11) := by
    simp only [ls_step, hcost1, hen1]
    norm_num
  have hs2 : ls_step gC2 1 ["s"] 100 (["1", "s", "a", "b", "1"], 12, 11)
      ["1", "a", "b", "s", "1"] = (["1", "s", "a", "b", "1"], 12, 11) := by
    simp only [ls_step, hcost2]
    norm_num
  unfold adjacent_swap_path
  simp only [pC2, hcands, List.foldl_cons, List.foldl_nil, hs1, hs2]

/-- C2, amended.  Acceptance conditions of the six local-search operators:
`apply_2opt` accepts exactly on a strict decrease of total distance (no
feasibility check at all); `adjacent_swap` accepts only when distance
strictly decreases and the recomputed energy is at most the cargo capacity
`Q` (compared against `cevrp.capacity`, not the battery capacity); general
swap, single-insertion, block-insert and reverse-segment accept only when
distance strictly decreases and the recomputed energy is at most `B`; and
none of the six re-checks demand — the five swap/insert/reverse operators
copy the route's demand unchanged. -/
theorem localSearchAcceptanceConditions (g : Graph) (hh : ℚ) (stations : List String)
    (Q B : ℚ) (p : Path) :
    ((apply_2opt g p).path_cost ≤ p.path_cost ∧
      ((apply_2opt g p).nodes ≠ p.nodes → (apply_2opt g p).path_cost < p.path_cost)) ∧
    ((adjacent_swap_path g hh stations Q p).path_cost ≤ p.path_cost ∧
      ((adjacent_swap_path g hh stations Q p).nodes ≠ p.nodes →
        (adjacent_swap_path g hh stations Q p).path_cost < p.path_cost ∧
        calculate_path_energy g hh stations (adjacent_swap_path g hh stations Q p).nodes ≤ Q) ∧
      (adjacent_swap_path g hh stations Q p).demand = p.demand) ∧
    ((general_swap_path g hh stations B p).path_cost ≤ calculate_path_cost g p.nodes ∧
      ((general_swap_path g hh stations B p).nodes ≠ p.nodes →
        (general_swap_path g hh stations B p).path_cost < calculate_path_cost g p.nodes ∧
        calculate_path_energy g hh stations (general_swap_path g hh stations B p).nodes ≤ B) ∧
      (general_swap_path g hh stations B p).demand = p.demand) ∧
    ((single_insertion_path g hh stations B p).path_cost ≤ calculate_path_cost g p.nodes ∧
      ((single_insertion_path g hh stations B p).nodes ≠ p.nodes →
        (single_insertion_path g hh stations B p).path_cost < calculate_path_cost g p.nodes ∧
        calculate_path_energy g hh stations (single_insertion_path g hh stations B p).nodes
          ≤ B) ∧
      (single_insertion_path g hh stations B p).demand = p.demand) ∧
    ((block_insertion_path g hh stations B p).path_cost ≤ calculate_path_cost g p.nodes ∧
      ((block_insertion_path g hh stations B p).nodes ≠ p.nodes →
        (block_insertion_path g hh stations B p).path_cost < calculate_path_cost g p.nodes ∧
        calculate_path_energy g hh stations (block_insertion_path g hh stations B p).nodes
          ≤ B) ∧
      (block_insertion_path g hh stations B p).demand = p.demand) ∧
    ((reverse_location_path g hh stations B p).path_cost ≤ calculate_path_cost g p.nodes ∧
      ((reverse_location_path g hh stations B p).nodes ≠ p.nodes →
        (reverse_location_path g hh stations B p).path_cost < calculate_path_cost g p.nodes ∧
        calculate_path_energy g hh stations (reverse_location_path g hh stations B p).nodes
          ≤ B) ∧
      (reverse_location_path g hh stations B p).demand = p.demand) := by
  refine ⟨?_, ?_, ?_, ?_, ?_, ?_⟩
  · constructor
    · unfold apply_2opt
      by_cases hlen : p.nodes.length < 3
      · simp [hlen]
      · simp only [hlen, if_false]
        exact (two_opt_foldl_spec g p.nodes (two_opt_pairs p.nodes.length)
          (p.nodes, p.path_cost)).1
    · intro hne
      unfold apply_2opt at hne ⊢
      by_cases hlen : p.nodes.length < 3
      · simp [hlen] at hne
      · simp only [hlen, if_false] at hne ⊢
        exact (two_opt_foldl_spec g p.nodes (two_opt_pairs p.nodes.length)
          (p.nodes, p.path_cost)).2 hne
  · exact ⟨(ls_foldl_spec g hh stations Q (adjacent_swap_candidates p.nodes)
        (p.nodes, p.path_cost, p.energy)).1,
      fun hne => (ls_foldl_spec g hh stations Q (adjacent_swap_candidates p.nodes)
        (p.nodes, p.path_cost, p.energy)).2 hne, rfl⟩
  · exact ⟨(ls_foldl_spec g hh stations B (general_swap_candidates p.nodes)
        (p.nodes, calculate_path_cost g p.nodes,
          calculate_path_energy_consumption g p.nodes hh)).1,
      fun hne => (ls_foldl_spec g hh stations B (general_swap_candidates p.nodes)
        (p.nodes, calculate_path_cost g p.nodes,
          calculate_path_energy_consumption g p.nodes hh)).2 hne, rfl⟩
  · exact ⟨(ls_foldl_spec g hh stations B (single_insertion_candidates p.nodes)
        (p.nodes, calculate_path_cost g p.nodes,
          calculate_path_energy_consumption g p.nodes hh)).1,
      fun hne => (ls_foldl_spec g hh stations B (single_insertion_candidates p.nodes)
        (p.nodes, calculate_path_cost g p.nodes,
          calculate_path_energy_consumption g p.nodes hh)).2 hne, rfl⟩
  · exact ⟨(ls_foldl_spec g hh stations B (block_insertion_candidates p.nodes)
        (p.nodes, calculate_path_cost g p.nodes,
          calculate_path_energy_consumption g p.nodes hh)).1,
      fun hne => (ls_foldl_spec g hh stations B (block_insertion_candidates p.nodes)
        (p.nodes, calculate_path_cost g p.nodes,
          calculate_path_energy_consumption g p.nodes hh)).2 hne, rfl⟩
  · exact ⟨(ls_foldl_spec g hh stations B (reverse_location_candidates p.nodes)
        (p.nodes, calculate_path_cost g p.nodes,
          calculate_path_energy_consumption g p.nodes hh)).1,
      fun hne => (ls_foldl_spec g hh stations B (reverse_location_candidates p.nodes)
        (p.nodes, calculate_path_cost g p.nodes,
          calculate_path_energy_consumption g p.nodes hh)).2 hne, rfl⟩

/-- C2, witness for the amended theorem: on the concrete instance both
2-opt and adjacent swap accept a changed route, so the theorem yields the
strict cost decreases and, for adjacent swap, the capacity-bound energy of
the accepted route. -/
theorem c2Witness :
    (apply_2opt gC2 pC2).path_cost < pC2.path_cost ∧
    (adjacent_swap_path gC2 1 ["s"] 100 pC2).path_cost < pC2.path_cost ∧
    calculate_path_energy gC2 1 ["s"] (adjacent_swap_path gC2 1 ["s"] 100 pC2).nodes
      ≤ 100 := by
  have hthm := localSearchAcceptanceConditions gC2 1 ["s"] 100 5 pC2
  have h2opt := hthm.1.2 (by rw [apply_2opt_gC2_eval]; simp [pC2])
  have hswap := hthm.2.1.2.1 (by rw [adjacent_swap_gC2_eval]; simp [pC2])
  exact ⟨h2opt, hswap.1, hswap.2⟩

/-- One station whose edge energy from the depot is exactly the battery
capacity used in the C4 counterexample. -/
def gC4 : Graph := [(("1", "s"), ce 10)]

/-- Two stations at costs 5 and 3 from the depot, for the C4 witness. -/
def gC4w : Graph := [(("1", "s1"), ce 5), (("1", "s2"), ce 3)]

/-- Loop body of `find_best_charging_station`
(`ALNS_METAHEURISTIC/repair_functions.py`): skip the last node itself,
require `current_energy + energy_required < energy_capacity` (strictly),
and keep the station of strictly smallest edge cost seen so far
(`best_station_cost` starts at infinity, modelled by the `none`
accumulator). -/
def fbcs_step (g : Graph) (h : ℚ) (last_node : String) (B E : ℚ)
    (best : Option (String × ℚ)) (station : String) : Option (String × ℚ) :=
  if station = last_node then best
  else if E + calculate_edge_energy_consumption g last_node station h < B then
    match best with
    | none => some (station, get_edge_cost g last_node station)
    | some b =>
      if get_edge_cost g last_node station < b.2 then
        some (station, get_edge_cost g last_node station)
      else best
  else best

def find_best_charging_station (g : Graph) (h : ℚ) (stations : List String)
    (last_node : String) (B E : ℚ) : Option String :=
  (stations.foldl (fbcs_step g h last_node B E) none).map Prod.fst

/-- Eligibility in the source's strict sense. -/
def fbcs_eligible (g : Graph) (h : ℚ) (L : String) (B E : ℚ) (t : String) : Prop :=
  t ≠ L ∧ E + calculate_edge_energy_consumption g L t h < B

lemma fbcs_foldl_none (g : Graph) (h : ℚ) (L : String) (B E : ℚ) (l : List String) :
    ∀ acc : Option (String × ℚ),
      l.foldl (fbcs_step g h L B E) acc = none ↔
        (acc = none ∧ ∀ t ∈ l, ¬ fbcs_eligible g h L B E t) := by
  induction l with
  | nil => intro acc; simp
  | cons x t ih =>
    intro acc
    rw [List.foldl_cons, ih]
    constructor
    · rintro ⟨hstep, hrest⟩
      have hacc : acc = none ∧ ¬ fbcs_eligible g h L B E x := by
        by_cases hx : x = L
        · simp only [fbcs_step, hx, if_pos rfl] at hstep
          exact ⟨hstep, fun he => he.1 hx⟩
        · by_cases hen : E + calculate_edge_energy_consumption g L x h < B
          · exfalso
            simp only [fbcs_step, hx, if_neg, if_pos hen] at hstep
            cases hacc' : acc with
            | none => rw [hacc'] at hstep; simp at hstep
            | some b =>
              rw [hacc'] at hstep
              by_cases hc : get_edge_cost g L x < b.2 <;> simp [hc] at hstep
          · simp only [fbcs_step, hx, if_neg, if_neg hen] at hstep
            exact ⟨hstep, fun he => hen he.2⟩
      exact ⟨hacc.1, fun s hs => by
        rcases List.mem_cons.mp hs with rfl | hmem
        · exact hacc.2
        · exact hrest s hmem⟩
    · rintro ⟨hacc, hall⟩
      have hx : ¬ fbcs_eligible g h L B E x := hall x (List.mem_cons_self x t)
      have hstep : fbcs_step g h L B E acc x = none := by
        subst hacc
        by_cases hxl : x = L
        · simp [fbcs_step, hxl]
        · have hen : ¬ E + calculate_edge_energy_consumption g L x h < B := by
            intro hcon; exact hx ⟨hxl, hcon⟩
          simp [fbcs_step, hxl, hen]
      exact ⟨hstep, fun s hs => hall s (List.mem_cons_of_mem x hs)⟩

lemma fbcs_foldl_some (g : Graph) (h : ℚ) (L : String) (B E : ℚ) (l : List String) :
    ∀ (acc : Option (String × ℚ)),
      (∀ s0 c0, acc = some (s0, c0) → c0 = get_edge_cost g L s0) →
      ∀ s c, l.foldl (fbcs_step g h L B E) acc = some (s, c) →
        c = get_edge_cost g L s ∧
        (acc = some (s, c) ∨ (s ∈ l ∧ fbcs_eligible g h L B E s)) ∧
        (∀ t ∈ l, fbcs_eligible g h L B E t → c ≤ get_edge_cost g L t) ∧
        (∀ s0 c0, acc = some (s0, c0) → c ≤ c0) := by
  induction l with
  | nil =>
    intro acc hok s c hres
    simp only [List.foldl_nil] at hres
    refine ⟨hok s c hres, Or.inl hres, by simp, ?_⟩
    intro s0 c0 h0
    rw [h0] at hres
    injection hres with hres
    injection hres with he1 he2
    rw [he2]
  | cons x t ih =>
    intro acc hok s c hres
    rw [List.foldl_cons] at hres
    by_cases hxl : x = L
    · have hstep : fbcs_step g h L B E acc x = acc := by simp [fbcs_step, hxl]
      rw [hstep] at hres
      obtain ⟨h1, h2, h3, h4⟩ := ih acc hok s c hres
      refine ⟨h1, ?_, ?_, h4⟩
      · rcases h2 with h2 | h2
        · exact Or.inl h2
        · exact Or.inr ⟨List.mem_cons_of_mem x h2.1, h2.2⟩
      · intro u hu he
        rcases List.mem_cons.mp hu with rfl | hmem
        · exact absurd hxl he.1
        · exact h3 u hmem he
    · by_cases hen : E + calculate_edge_energy_consumption g L x h < B
      · have helx : fbcs_eligible g h L B E x := ⟨hxl, hen⟩
        have hxok : ∀ s0 c0, (some (x, get_edge_cost g L x) : Option (String × ℚ))
            = some (s0, c0) → c0 = get_edge_cost g L s0 := by
          intro s0 c0 h0
          injection h0 with h0
          injection h0 with he1 he2
          rw [← he1, ← he2]
        cases hacc : acc with
        | none =>
          rw [hacc] at hres
          have hstep : fbcs_step g h L B E none x = some (x, get_edge_cost g L x) := by
            simp [fbcs_step, hxl, hen]
          rw [hstep] at hres
          obtain ⟨h1, h2, h3, h4⟩ := ih _ hxok s c hres
          refine ⟨h1, ?_, ?_, ?_⟩
          · rcases h2 with h2 | h2
            · injection h2 with h2
              injection h2 with he1 he2
              exact Or.inr ⟨he1 ▸ List.mem_cons_self x t, he1 ▸ helx⟩
            · exact Or.inr ⟨List.mem_cons_of_mem x h2.1, h2.2⟩
          · intro u hu he
            rcases List.mem_cons.mp hu with rfl | hmem
            · exact h4 u (get_edge_cost g L u) rfl
            · exact h3 u hmem he
          · intro s0 c0 h0
            exact absurd h0 (by simp)
        | some b =>
          obtain ⟨bs, bc⟩ := b
          rw [hacc] at hres
          by_cases hc : get_edge_cost g L x < bc
          · have hstep : fbcs_step g h L B E (some (bs, bc)) x
                = some (x, get_edge_cost g L x) := by
              simp [fbcs_step, hxl, hen, hc]
            rw [hstep] at hres
            obtain ⟨h1, h2, h3, h4⟩ := ih _ hxok s c hres
            have hbx : c ≤ get_edge_cost g L x := h4 x (get_edge_cost g L x) rfl
            refine ⟨h1, ?_, ?_, ?_⟩
            · rcases h2 with h2 | h2
              · injection h2 with h2
                injection h2 with he1 he2
                exact Or.inr ⟨he1 ▸ List.mem_cons_self x t, he1 ▸ helx⟩
              · exact Or.inr ⟨List.mem_cons_of_mem x h2.1, h2.2⟩
            · intro u hu he
              rcases List.mem_cons.mp hu with rfl | hmem
              · exact h4 u (get_edge_cost g L u) rfl
              · exact h3 u hmem he
            · intro s0 c0 h0
              injection h0 with h0
              injection h0 with he1 he2
              rw [← he2]
              exact le_of_lt (lt_of_le_of_lt hbx hc)
          · have hstep : fbcs_step g h L B E (some (bs, bc)) x = some (bs, bc) := by
              simp [fbcs_step, hxl, hen, hc]
            rw [hstep] at hres
            have hok' : ∀ s0 c0, (some (bs, bc) : Option (String × ℚ))
                = some (s0, c0) → c0 = get_edge_cost g L s0 := by
              intro s0 c0 h0
              injection h0 with h0
              injection h0 with he1 he2
              rw [← he1, ← he2]
              exact hok bs bc hacc
            obtain ⟨h1, h2, h3, h4⟩ := ih _ hok' s c hres
            have hcbc : c ≤ bc := h4 bs bc rfl
            refine ⟨h1, ?_, ?_, ?_⟩
            · rcases h2 with h2 | h2
              · exact Or.inl (hacc ▸ h2)
              · exact Or.inr ⟨List.mem_cons_of_mem x h2.1, h2.2⟩
            · intro u hu he
              rcases List.mem_cons.mp hu with rfl | hmem
              · exact le_trans hcbc (le_of_not_lt hc)
              · exact h3 u hmem he
            · intro s0 c0 h0
              injection h0 with h0
              injection h0 with he1 he2
              rw [← he2]
              exact hcbc
      · have hstep : fbcs_step g h L B E acc x = acc := by
          simp [fbcs_step, hxl, hen]
        rw [hstep] at hres
        obtain ⟨h1, h2, h3, h4⟩ := ih acc hok s c hres
        refine ⟨h1, ?_, ?_, h4⟩
        · rcases h2 with h2 | h2
          · exact Or.inl h2
          · exact Or.inr ⟨List.mem_cons_of_mem x h2.1, h2.2⟩
        · intro u hu he
          rcases List.mem_cons.mp hu with rfl | hmem
          · exact absurd he.2 hen
          · exact h3 u hmem he

/-- C4, counterexample.  With one station at edge energy exactly `B`
(`E + edge_energy(L, s) = 10 = B`), the subroutine returns `none`: the
source's strict `<` comparison makes the boundary station ineligible,
contradicting the claim that equality is eligible. -/
theorem c4Counterexample :
    (0 : ℚ) + calculate_edge_energy_consumption gC4 "1" "s" 1 = 10 ∧
    find_best_charging_station gC4 1 ["s"] "1" 10 0 = none := by
  constructor
  · simp [calculate_edge_energy_consumption, get_edge_cost, edgeLookup, gC4, ce]
  · norm_num [find_best_charging_station, fbcs_step, calculate_edge_energy_consumption,
      get_edge_cost, edgeLookup, gC4, ce]

/-- C4, amended.  The subroutine returns a station `s ≠ L` minimizing
`cost(L, s)` among the stations satisfying the strict bound
`E + edge_energy(L, s) < B`, and returns `none` exactly when no station
satisfies that strict bound; a station at exactly `B` is not eligible. -/
theorem findBestChargingStationSpec (g : Graph) (h : ℚ) (stations : List String)
    (L : String) (B E : ℚ) :
    (∀ s, find_best_charging_station g h stations L B E = some s →
      s ∈ stations ∧ s ≠ L ∧ E + calculate_edge_energy_consumption g L s h < B ∧
      ∀ t ∈ stations, t ≠ L → E + calculate_edge_energy_consumption g L t h < B →
        get_edge_cost g L s ≤ get_edge_cost g L t) ∧
    (find_best_charging_station g h stations L B E = none ↔
      ∀ t ∈ stations, ¬ (t ≠ L ∧ E + calculate_edge_energy_consumption g L t h < B)) := by
  constructor
  · intro s hres
    unfold find_best_charging_station at hres
    cases hfold : stations.foldl (fbcs_step g h L B E) none with
    | none => rw [hfold] at hres; simp at hres
    | some b =>
      obtain ⟨bs, bc⟩ := b
      rw [hfold] at hres
      simp only [Option.map_some'] at hres
      injection hres with hres
      obtain ⟨h1, h2, h3, h4⟩ :=
        fbcs_foldl_some g h L B E stations none (by simp) bs bc hfold
      rcases h2 with h2 | h2
      · exact absurd h2 (by simp)
      · subst hres
        refine ⟨h2.1, h2.2.1, h2.2.2, ?_⟩
        intro t ht htl hte
        have := h3 t ht ⟨htl, hte⟩
        rw [h1] at this
        exact this
  · unfold find_best_charging_station
    rw [Option.map_eq_none']
    rw [fbcs_foldl_none g h L B E stations none]
    simp [fbcs_eligible]

/-- C4, witness: on a two-station instance with costs 5 and 3 and a loose
battery bound, the subroutine returns the cheaper station `"s2"`, which the
amended theorem certifies as eligible and cost-minimal. -/
theorem c4Witness :
    "s2" ∈ ["s1", "s2"] ∧ "s2" ≠ "1" ∧
    (0 : ℚ) + calculate_edge_energy_consumption gC4w "1" "s2" 1 < 100 ∧
    (∀ t ∈ ["s1", "s2"], t ≠ "1" →
      (0 : ℚ) + calculate_edge_energy_consumption gC4w "1" t 1 < 100 →
      get_edge_cost gC4w "1" "s2" ≤ get_edge_cost gC4w "1" t) :=
  (findBestChargingStationSpec gC4w 1 ["s1", "s2"] "1" 100 0).1 "s2" (by
    have hstep1 : fbcs_step gC4w 1 "1" 100 0 none "s1" = some ("s1", 5) := by
      simp [fbcs_step, calculate_edge_energy_consumption, get_edge_cost, edgeLookup, gC4w, ce]
      norm_num
    have hstep2 : fbcs_step gC4w 1 "1" 100 0 (some ("s1", 5)) "s2" = some ("s2", 3) := by
      simp [fbcs_step, calculate_edge_energy_consumption, get_edge_cost, edgeLookup, gC4w, ce]
      norm_num
    simp [find_best_charging_station, hstep1, hstep2])


/-! ### MMAS pheromone operators (`MMAS/pheromone_operators.py`) -/

/-- `validate_pheromone_levels`: clamp into `[min_level, max_level]` via
`min(max(value, min_level), max_level)`. -/
def validate_pheromone_levels (pheromone_value max_level min_level : ℚ) : ℚ :=
  min (max pheromone_value min_level) max_level

/-- `calculate_max_phi`: `1 / ((1 - rho) * best_path_cost)`, raising when
`rho` is outside `(0, 1)`. -/
def calculate_max_phi (evaporation_rate best_path_cost : ℚ) : Except String ℚ :=
  if ¬ (0 < evaporation_rate ∧ evaporation_rate < 1) then
    Except.error "The value of rho must be in the range (0, 1)."
  else Except.ok (1 / ((1 - evaporation_rate) * best_path_cost))

/-- `calculate_min_phi`: `max_level * ((1 - 1/r) / (n/2 - 1)) * (1/r)` with
`r = pr^(1/n)`.  The n-th root computed by `math.pow(pr, 1/n)` is
irrational in general and is therefore passed in as the parameter
`nth_root_pr`; the theorems characterize it by `0 < nth_root_pr < 1`,
which holds for every `0 < pr < 1`. -/
def calculate_min_phi (max_level : ℚ) (total_customers : ℕ) (pr : ℚ)
    (nth_root_pr : ℚ) : Except String ℚ :=
  if total_customers ≤ 2 then Except.error "The value of n must be greater than 2."
  else if ¬ (0 < pr ∧ pr ≤ 1) then
    Except.error "The value of pr must be in the range (0, 1]."
  else
    Except.ok (max_level * ((1 - 1 / nth_root_pr) / ((total_customers : ℚ) / 2 - 1))
      * (1 / nth_root_pr))

/-- `calculate_pheromone_value`: evaporate-and-deposit
`rho * tau + 1 / C_best`, then clamp into `[phi_min, phi_max]`; the
Python exceptions of the two phi computations propagate.  `pr` takes its
default value `0.05 = 1/20` at this call site. -/
def calculate_pheromone_value (evaporation_rate pheromone_value best_path_cost : ℚ)
    (total_customers : ℕ) (nth_root_pr : ℚ) : Except String ℚ :=
  let new_pheromone_value := evaporation_rate * pheromone_value + 1 / best_path_cost
  match calculate_max_phi evaporation_rate best_path_cost with
  | Except.error e => Except.error e
  | Except.ok max_level =>
    match calculate_min_phi max_level total_customers (1 / 20) nth_root_pr with
    | Except.error e => Except.error e
    | Except.ok min_level =>
      Except.ok (validate_pheromone_levels new_pheromone_value max_level min_level)

/-- Looking up the written key after updating it through `List.map`
recovers the updated attributes. -/
lemma edgeLookup_map_update (u v : String) (x : ℚ) :
    ∀ g : Graph,
      edgeLookup
        (g.map (fun e =>
          if e.1 = (u, v) then (e.1, { e.2 with pheromones := some x }) else e)) (u, v) =
        (edgeLookup g (u, v)).map (fun a => { a with pheromones := some x }) := by
  intro g
  induction g with
  | nil => rfl
  | cons e rest ih =>
    by_cases hk : e.1 = (u, v)
    · simp [edgeLookup, hk]
    · simp [edgeLookup, hk, ih]

/-- Reading back the pheromone attribute just written on an existing edge. -/
lemma get_set_pheromones (g : Graph) (u v : String) (x : ℚ)
    (he : has_edge g u v = true) :
    get_edge_pheromones (set_edge_pheromones g u v x) u v = x := by
  unfold set_edge_pheromones
  rw [if_pos he]
  unfold get_edge_pheromones
  rw [edgeLookup_map_update]
  obtain ⟨a, ha⟩ := Option.isSome_iff_exists.mp (by rw [has_edge] at he; exact he)
  rw [ha]
  rfl

/-- C5.  Every pheromone deposit computes
`clamp(rho * tau + 1/C_best, tau_min, tau_max)` with
`tau_max = 1/((1 - rho) * C_best)` and
`tau_min = tau_max * ((1 - 1/r)/(n/2 - 1)) * (1/r)`, and the value written
onto an existing edge (and read back from it) lies in
`[tau_min, tau_max]`. -/
theorem calculatePheromoneValueClamps (ρ τ C : ℚ) (n : ℕ) (r : ℚ)
    (hρ0 : 0 < ρ) (hρ1 : ρ < 1) (hn : 2 < n) (hC : 0 < C) (hr0 : 0 < r) (hr1 : r < 1)
    (g : Graph) (u v : String) (he : has_edge g u v = true) :
    calculate_pheromone_value ρ τ C n r =
      Except.ok (validate_pheromone_levels (ρ * τ + 1 / C) (1 / ((1 - ρ) * C))
        ((1 / ((1 - ρ) * C)) * ((1 - 1 / r) / ((n : ℚ) / 2 - 1)) * (1 / r))) ∧
    ∀ val, calculate_pheromone_value ρ τ C n r = Except.ok val →
      (1 / ((1 - ρ) * C)) * ((1 - 1 / r) / ((n : ℚ) / 2 - 1)) * (1 / r) ≤ val ∧
      val ≤ 1 / ((1 - ρ) * C) ∧
      get_edge_pheromones (deposit_pheromones g u v val) u v = val := by
  have hn' : ¬ n ≤ 2 := by omega
  have heval : calculate_pheromone_value ρ τ C n r =
      Except.ok (validate_pheromone_levels (ρ * τ + 1 / C) (1 / ((1 - ρ) * C))
        ((1 / ((1 - ρ) * C)) * ((1 - 1 / r) / ((n : ℚ) / 2 - 1)) * (1 / r))) := by
    have hρ : (0 < ρ ∧ ρ < 1) := ⟨hρ0, hρ1⟩
    have hpr : ((0 : ℚ) < 1 / 20 ∧ (1 : ℚ) / 20 ≤ 1) := by norm_num
    simp [calculate_pheromone_value, calculate_max_phi, calculate_min_phi, hρ, hpr, hn']
    norm_num
  refine ⟨heval, ?_⟩
  intro val hval
  rw [heval] at hval
  injection hval with hval
  have hmaxpos : 0 < 1 / ((1 - ρ) * C) := by
    apply one_div_pos.mpr
    apply mul_pos (by linarith) hC
  have h1r : 1 < 1 / r := by
    rw [lt_div_iff₀ hr0]
    linarith
  have hnum : 1 - 1 / r < 0 := by linarith
  have hden : 0 < (n : ℚ) / 2 - 1 := by
    have : (3 : ℚ) ≤ (n : ℚ) := by exact_mod_cast hn
    linarith
  have hminneg : (1 / ((1 - ρ) * C)) * ((1 - 1 / r) / ((n : ℚ) / 2 - 1)) * (1 / r) < 0 := by
    apply mul_neg_of_neg_of_pos
    · apply mul_neg_of_pos_of_neg hmaxpos
      exact div_neg_of_neg_of_pos hnum hden
    · exact one_div_pos.mpr hr0
  have hlohi : (1 / ((1 - ρ) * C)) * ((1 - 1 / r) / ((n : ℚ) / 2 - 1)) * (1 / r)
      ≤ 1 / ((1 - ρ) * C) := le_trans (le_of_lt hminneg) (le_of_lt hmaxpos)
  refine ⟨?_, ?_, ?_⟩
  · rw [← hval]
    exact le_min (le_max_right _ _) hlohi
  · rw [← hval]
    exact min_le_right _ _
  · exact get_set_pheromones g u v val he

/-- Single-edge graph carrying both attributes, for the C5 witness. -/
def gC5w : Graph := [(("1", "2"), ⟨some 1, some 1⟩)]

/-- C5, witness: concrete instantiation at `rho = 1/2`, `tau = 0`,
`C_best = 1`, `n = 3`, `r = 1/2` on the edge `("1", "2")`. -/
theorem c5Witness :
    calculate_pheromone_value (1 / 2) 0 1 3 (1 / 2) =
      Except.ok (validate_pheromone_levels ((1 / 2) * 0 + 1 / 1) (1 / ((1 - 1 / 2) * 1))
        ((1 / ((1 - 1 / 2) * 1)) * ((1 - 1 / (1 / 2)) / ((3 : ℚ) / 2 - 1)) * (1 / (1 / 2)))) :=
  (calculatePheromoneValueClamps (1 / 2) 0 1 3 (1 / 2) (by norm_num) (by norm_num)
    (by norm_num) (by norm_num) (by norm_num) (by norm_num) gC5w "1" "2"
    (by simp [has_edge, edgeLookup, gC5w])).1

/-! ### Roulette wheel selection (`MMAS/pheromone_operators.py`) -/

/-- Stable insertion into a descending-sorted list: the new element goes
after every element of greater-or-equal key, matching the stability of
Python's `sorted` with key `-item[1]`. -/
def insertByDesc {α : Type} (key : α → ℚ) (x : α) : List α → List α
  | [] => [x]
  | y :: ys => if key y < key x then x :: y :: ys else y :: insertByDesc key x ys

def sortByDesc {α : Type} (key : α → ℚ) (l : List α) : List α :=
  l.foldl (fun acc x => insertByDesc key x acc) []

def rwsAux (u : ℚ) : ℚ → List (String × ℚ) → Except String String
  | _, [] => Except.error "Edge case for roulette wheel selection"
  | current, (node, fitness) :: rest =>
    if current + fitness > u then Except.ok node else rwsAux u (current + fitness) rest

def roulette_wheel_selection (probabilities : List (String × ℚ)) (u : ℚ) :
    Except String String :=
  rwsAux u 0 (sortByDesc Prod.snd probabilities)

lemma mem_insertByDesc {α : Type} (key : α → ℚ) (x b : α) :
    ∀ l : List α, b ∈ insertByDesc key x l ↔ b = x ∨ b ∈ l := by
  intro l
  induction l with
  | nil => simp [insertByDesc]
  | cons y ys ih =>
    by_cases hlt : key y < key x
    · simp [insertByDesc, hlt]
    · simp [insertByDesc, hlt, ih]
      tauto

lemma insertByDesc_sorted {α : Type} (key : α → ℚ) (x : α) :
    ∀ l : List α, List.Sorted (fun a b => key b ≤ key a) l →
      List.Sorted (fun a b => key b ≤ key a) (insertByDesc key x l) := by
  intro l
  induction l with
  | nil => intro _; simp [insertByDesc]
  | cons y ys ih =>
    intro hs
    rw [List.sorted_cons] at hs
    by_cases hlt : key y < key x
    · rw [insertByDesc, if_pos hlt]
      rw [List.sorted_cons]
      constructor
      · intro b hb
        rcases List.mem_cons.mp hb with rfl | hb
        · exact le_of_lt hlt
        · exact le_trans (hs.1 b hb) (le_of_lt hlt)
      · rw [List.sorted_cons]
        exact hs
    · rw [insertByDesc, if_neg hlt]
      rw [List.sorted_cons]
      constructor
      · intro b hb
        rcases (mem_insertByDesc key x b ys).mp hb with rfl | hb
        · exact le_of_not_lt hlt
        · exact hs.1 b hb
      · exact ih hs.2

lemma sortByDesc_sorted {α : Type} (key : α → ℚ) (l : List α) :
    List.Sorted (fun a b => key b ≤ key a) (sortByDesc key l) := by
  have main : ∀ (l acc : List α), List.Sorted (fun a b => key b ≤ key a) acc →
      List.Sorted (fun a b => key b ≤ key a)
        (l.foldl (fun acc x => insertByDesc key x acc) acc) := by
    intro l
    induction l with
    | nil => intro acc h; exact h
    | cons x xs ih =>
      intro acc h
      rw [List.foldl_cons]
      exact ih _ (insertByDesc_sorted key x acc h)
  exact main l [] (by simp)

lemma rwsAux_spec (u : ℚ) (l : List (String × ℚ)) : ∀ cur : ℚ,
    (rwsAux u cur l = Except.error "Edge case for roulette wheel selection" ↔
      ∀ k < l.length, cur + ((l.take (k + 1)).map Prod.snd).sum ≤ u) ∧
    (∀ node, rwsAux u cur l = Except.ok node →
      ∃ k, ∃ hk : k < l.length, (l.get ⟨k, hk⟩).1 = node ∧
        u < cur + ((l.take (k + 1)).map Prod.snd).sum ∧
        ∀ j < k, cur + ((l.take (j + 1)).map Prod.snd).sum ≤ u) := by
  induction l with
  | nil =>
    intro cur
    constructor
    · simp [rwsAux]
    · intro node h
      simp [rwsAux] at h
  | cons p rest ih =>
    intro cur
    obtain ⟨pn, pf⟩ := p
    constructor
    · constructor
      · intro herr
        rw [rwsAux] at herr
        by_cases hgt : cur + pf > u
        · rw [if_pos hgt] at herr
          exact absurd herr (by simp)
        · rw [if_neg hgt] at herr
          intro k hk
          cases k with
          | zero => simpa using le_of_not_lt hgt
          | succ j =>
            have hj : j < rest.length := by simpa using hk
            have := ((ih (cur + pf)).1.mp herr) j hj
            simpa [add_assoc] using this
      · intro hall
        rw [rwsAux]
        have h0 : cur + pf ≤ u := by simpa using hall 0 (by simp)
        rw [if_neg (not_lt.mpr h0)]
        apply (ih (cur + pf)).1.mpr
        intro k hk
        have := hall (k + 1) (by simpa using Nat.succ_lt_succ hk)
        simpa [add_assoc] using this
    · intro node hok
      rw [rwsAux] at hok
      by_cases hgt : cur + pf > u
      · rw [if_pos hgt] at hok
        injection hok with hok
        refine ⟨0, by simp, by simpa using hok, by simpa using hgt, by simp⟩
      · rw [if_neg hgt] at hok
        obtain ⟨k, hk, hname, hexc, hmin⟩ := (ih (cur + pf)).2 node hok
        refine ⟨k + 1, by simpa using Nat.succ_lt_succ hk, ?_, ?_, ?_⟩
        · simpa using hname
        · simpa [add_assoc] using hexc
        · intro j hj
          cases j with
          | zero => simpa using le_of_not_lt hgt
          | succ i =>
            have := hmin i (by omega)
            simpa [add_assoc] using this


/-- C6.  `roulette_wheel_selection` on a draw `u`: the candidate list is
sorted by descending probability (stably); the result is `ok node` exactly
for the first sorted candidate whose cumulative probability strictly
exceeds `u`, and the `RuntimeError` is raised exactly when no cumulative
prefix sum exceeds `u`. -/
theorem rouletteWheelSelectionSpec (probs : List (String × ℚ)) (u : ℚ) :
    List.Sorted (fun a b : String × ℚ => b.2 ≤ a.2) (sortByDesc Prod.snd probs) ∧
    (roulette_wheel_selection probs u = Except.error "Edge case for roulette wheel selection" ↔
      ∀ k < (sortByDesc Prod.snd probs).length,
        (((sortByDesc Prod.snd probs).take (k + 1)).map Prod.snd).sum ≤ u) ∧
    (∀ node, roulette_wheel_selection probs u = Except.ok node →
      ∃ k, ∃ hk : k < (sortByDesc Prod.snd probs).length,
        ((sortByDesc Prod.snd probs).get ⟨k, hk⟩).1 = node ∧
        u < (((sortByDesc Prod.snd probs).take (k + 1)).map Prod.snd).sum ∧
        ∀ j < k, (((sortByDesc Prod.snd probs).take (j + 1)).map Prod.snd).sum ≤ u) := by
  refine ⟨sortByDesc_sorted Prod.snd probs, ?_, ?_⟩
  · have := (rwsAux_spec u (sortByDesc Prod.snd probs) 0).1
    simpa [roulette_wheel_selection] using this
  · intro node h
    have := (rwsAux_spec u (sortByDesc Prod.snd probs) 0).2 node
      (by simpa [roulette_wheel_selection] using h)
    simpa using this

/-- C6, witness: with probabilities `A = B = 1/2` and draw `u = 0`, the
selection returns `"A"`, and the theorem locates it as the first sorted
candidate whose cumulative sum exceeds the draw. -/
theorem c6Witness :
    ∃ k, ∃ hk : k < (sortByDesc Prod.snd [("A", (1 : ℚ) / 2), ("B", 1 / 2)]).length,
      ((sortByDesc Prod.snd [("A", (1 : ℚ) / 2), ("B", 1 / 2)]).get ⟨k, hk⟩).1 = "A" ∧
      (0 : ℚ) <
        (((sortByDesc Prod.snd [("A", (1 : ℚ) / 2), ("B", 1 / 2)]).take (k + 1)).map
          Prod.snd).sum ∧
      ∀ j < k,
        (((sortByDesc Prod.snd [("A", (1 : ℚ) / 2), ("B", 1 / 2)]).take (j + 1)).map
          Prod.snd).sum ≤ 0 :=
  (rouletteWheelSelectionSpec [("A", (1 : ℚ) / 2), ("B", 1 / 2)] 0).2.2 "A" (by
    have hsort : sortByDesc Prod.snd [("A", (1 : ℚ) / 2), ("B", 1 / 2)]
        = [("A", 1 / 2), ("B", 1 / 2)] := by
      norm_num [sortByDesc, insertByDesc]
    rw [roulette_wheel_selection, hsort]
    norm_num [rwsAux])

/-- `roulette_wheel_selection` as called through the module-level `random`
generator: `random.seed(seed)` replaces the generator state by
`seedFn seed`, discarding the incoming state `rng`, and
`pick = random.random()` draws through `randFn`.  The selection itself is
the deterministic scan embedded above. -/
def roulette_wheel_selection_seeded {S : Type} (seedFn : ℕ → S) (randFn : S → ℚ × S)
    (probabilities : List (String × ℚ)) (seed : ℕ) (_rng : S) :
    Except String String × S :=
  let seeded := seedFn seed
  let draw := randFn seeded
  (roulette_wheel_selection probabilities draw.1, draw.2)

/-- C9.  With the default seed 1234 the function reseeds the generator
before drawing, so its result is independent of the incoming generator
state: two calls with equal probability maps agree regardless of prior
seeding or consumption, and each equals the pure selection at the
post-seed draw. -/
theorem rouletteWheelReseedsPure {S : Type} (seedFn : ℕ → S) (randFn : S → ℚ × S)
    (probs : List (String × ℚ)) (rng1 rng2 : S) :
    (roulette_wheel_selection_seeded seedFn randFn probs 1234 rng1).1 =
      (roulette_wheel_selection_seeded seedFn randFn probs 1234 rng2).1 ∧
    (roulette_wheel_selection_seeded seedFn randFn probs 1234 rng1).1 =
      roulette_wheel_selection probs (randFn (seedFn 1234)).1 :=
  ⟨rfl, rfl⟩


/-! ### Greedy insertion (`ALNS_METAHEURISTIC/repair_operators.py`) -/

/-- A snapshot of a solution's mutable contents: the routes and the
unassigned customers (the graph and instance are shared externally and are
passed to the operators as explicit parameters). -/
structure StateCore where
  paths : List Path
  unassigned : List String
deriving DecidableEq

/-- `CevrpState`: routes, unassigned customers, and the stored
`previous_state` back-reference used by repair operators as a rollback
target (read one level deep only). -/
structure CevrpState where
  paths : List Path
  unassigned : List String
  previousState : Option StateCore
deriving DecidableEq

/-- An insertion candidate of `greedy_insertion`:
`path.nodes[:i] + [node] + path.nodes[i:]`. -/
def gi_cand (node : String) (p : Path) (i : ℕ) : List String :=
  p.nodes.take i ++ node :: p.nodes.drop i

/-- Feasibility test applied to an insertion candidate: recomputed energy
at most `B` and recomputed demand at most `Q`. -/
def gi_feasible (g : Graph) (dm : Demands) (stations : List String) (h : ℚ) (Q : ℤ)
    (B : ℚ) (node : String) (t : ℕ × Path × ℕ) : Prop :=
  calculate_path_energy g h stations (gi_cand node t.2.1 t.2.2) ≤ B ∧
  get_total_demand_path dm (gi_cand node t.2.1 t.2.2) ≤ Q

/-- The row-major flattening of `greedy_insertion`'s double loop
`for path_idx, path in enumerate(modified_paths): for i in
range(1, len(path.nodes))`, as (route index, route, position) triples. -/
def gi_items (mp : List Path) : List (ℕ × Path × ℕ) :=
  mp.enum.flatMap (fun ip =>
    (List.range' 1 (ip.2.nodes.length - 1)).map (fun i => (ip.1, ip.2, i)))

/-- Loop body of the inner scan: keep the feasible candidate of strictly
smallest resulting route cost (`best_cost` starts at infinity, modelled by
the `none` accumulator; the cost compared is the whole new route's cost,
not the incremental cost). -/
def gi_step (g : Graph) (dm : Demands) (stations : List String) (h : ℚ) (Q : ℤ)
    (B : ℚ) (node : String) (acc : Option (List String × ℕ × ℚ)) (t : ℕ × Path × ℕ) :
    Option (List String × ℕ × ℚ) :=
  let new_nodes := gi_cand node t.2.1 t.2.2
  let new_cost := calculate_path_cost g new_nodes
  if calculate_path_energy g h stations new_nodes ≤ B ∧
      get_total_demand_path dm new_nodes ≤ Q then
    match acc with
    | none => some (new_nodes, t.1, new_cost)
    | some b => if new_cost < b.2.2 then some (new_nodes, t.1, new_cost) else acc
  else acc

/-- The inner scan of `greedy_insertion` over every route and position. -/
def greedy_insertion_best (g : Graph) (dm : Demands) (stations : List String)
    (h : ℚ) (Q : ℤ) (B : ℚ) (mp : List Path) (node : String) :
    Option (List String × ℕ × ℚ) :=
  (gi_items mp).foldl (gi_step g dm stations h Q B node) none


/-- Per-customer step of `greedy_insertion`: install the winning insertion
as a rebuilt `Path` (cost as found, demand and energy recomputed,
`feasible=True`), or append the customer to the new unassigned list when no
feasible position exists. -/
def greedy_step (g : Graph) (dm : Demands) (stations : List String)
    (h : ℚ) (Q : ℤ) (B : ℚ) (acc : List Path × List String) (node : String) :
    List Path × List String :=
  match greedy_insertion_best g dm stations h Q B acc.1 node with
  | some (best_nodes, idx, best_cost) =>
    (acc.1.set idx
      ⟨best_nodes, best_cost, get_total_demand_path dm best_nodes,
        calculate_path_energy g h stations best_nodes, true⟩,
     acc.2)
  | none => (acc.1, acc.2 ++ [node])

/-- `are_paths_depot_constrained` (`repair_functions.py`): every route is
non-empty and starts and ends at the depot. -/
def are_paths_depot_constrained (paths : List Path) : Bool :=
  paths.all (fun p =>
    match p.nodes.head?, p.nodes.getLast? with
    | some a, some b => decide (a = "1") && decide (b = "1")
    | _, _ => false)

/-- `greedy_insertion`: process the unassigned customers in order against
the evolving route list; finally return the new state only if every route
is depot-anchored and nothing remained unassigned, and otherwise fall back
to `state.previous_state`. -/
def greedy_insertion (g : Graph) (dm : Demands) (stations : List String)
    (h : ℚ) (Q : ℤ) (B : ℚ) (state : CevrpState) : Option StateCore :=
  let r := state.unassigned.foldl (greedy_step g dm stations h Q B) (state.paths, [])
  if are_paths_depot_constrained r.1 ∧ r.2 = [] then some ⟨r.1, r.2⟩
  else state.previousState

/-- The greedy fold never adds or removes routes: `List.set` preserves the
length of the route list. -/
lemma greedy_foldl_length (g : Graph) (dm : Demands) (stations : List String)
    (h : ℚ) (Q : ℤ) (B : ℚ) (l : List String) :
    ∀ acc : List Path × List String,
      (l.foldl (greedy_step g dm stations h Q B) acc).1.length = acc.1.length := by
  induction l with
  | nil => intro acc; rfl
  | cons x t ih =>
    intro acc
    rw [List.foldl_cons, ih]
    unfold greedy_step
    cases greedy_insertion_best g dm stations h Q B acc.1 x with
    | none => rfl
    | some b => simp

/-- The scan returns `none` exactly when no candidate over the processed
items is feasible. -/
lemma gi_foldl_none (g : Graph) (dm : Demands) (stations : List String) (h : ℚ)
    (Q : ℤ) (B : ℚ) (node : String) (l : List (ℕ × Path × ℕ)) :
    ∀ acc : Option (List String × ℕ × ℚ),
      l.foldl (gi_step g dm stations h Q B node) acc = none ↔
        (acc = none ∧ ∀ t ∈ l, ¬ gi_feasible g dm stations h Q B node t) := by
  induction l with
  | nil => intro acc; simp
  | cons x t ih =>
    intro acc
    rw [List.foldl_cons, ih]
    constructor
    · rintro ⟨hstep, hrest⟩
      have hx : acc = none ∧ ¬ gi_feasible g dm stations h Q B node x := by
        by_cases hf : calculate_path_energy g h stations (gi_cand node x.2.1 x.2.2) ≤ B ∧
            get_total_demand_path dm (gi_cand node x.2.1 x.2.2) ≤ Q
        · exfalso
          simp only [gi_step, if_pos hf] at hstep
          cases hacc : acc with
          | none => rw [hacc] at hstep; simp at hstep
          | some b =>
            rw [hacc] at hstep
            by_cases hc : calculate_path_cost g (gi_cand node x.2.1 x.2.2) < b.2.2 <;>
              simp [hc] at hstep
        · have hstep' : gi_step g dm stations h Q B node acc x = acc := by
            simp only [gi_step]
            rw [if_neg hf]
          rw [hstep'] at hstep
          exact ⟨hstep, fun hfe => hf ⟨hfe.1, hfe.2⟩⟩
      refine ⟨hx.1, fun s hs => ?_⟩
      rcases List.mem_cons.mp hs with rfl | hmem
      · exact hx.2
      · exact hrest s hmem
    · rintro ⟨hacc, hall⟩
      have hx : ¬ gi_feasible g dm stations h Q B node x := hall x (List.mem_cons_self x t)
      have hstep : gi_step g dm stations h Q B node acc x = none := by
        subst hacc
        have hf : ¬ (calculate_path_energy g h stations (gi_cand node x.2.1 x.2.2) ≤ B ∧
            get_total_demand_path dm (gi_cand node x.2.1 x.2.2) ≤ Q) := by
          intro hcon; exact hx ⟨hcon.1, hcon.2⟩
        simp only [gi_step]
        rw [if_neg hf]
      exact ⟨hstep, fun s hs => hall s (List.mem_cons_of_mem x hs)⟩

/-- Characterization of a successful scan: the result is a feasible
candidate from the items, its cost is the resulting route's recomputed
cost, and that cost is minimal among all feasible candidates (and at most
the incoming accumulator's). -/
lemma gi_foldl_some (g : Graph) (dm : Demands) (stations : List String) (h : ℚ)
    (Q : ℤ) (B : ℚ) (node : String) (l : List (ℕ × Path × ℕ)) :
    ∀ (acc : Option (List String × ℕ × ℚ)),
      (∀ n0 i0 c0, acc = some (n0, i0, c0) → c0 = calculate_path_cost g n0) →
      ∀ nodes idx cost,
        l.foldl (gi_step g dm stations h Q B node) acc = some (nodes, idx, cost) →
          cost = calculate_path_cost g nodes ∧
          (acc = some (nodes, idx, cost) ∨
            (∃ t ∈ l, gi_feasible g dm stations h Q B node t ∧
              nodes = gi_cand node t.2.1 t.2.2 ∧ idx = t.1)) ∧
          (∀ t ∈ l, gi_feasible g dm stations h Q B node t →
            cost ≤ calculate_path_cost g (gi_cand node t.2.1 t.2.2)) ∧
          (∀ n0 i0 c0, acc = some (n0, i0, c0) → cost ≤ c0) := by
  induction l with
  | nil =>
    intro acc hok nodes idx cost hres
    simp only [List.foldl_nil] at hres
    refine ⟨hok nodes idx cost hres, Or.inl hres, by simp, ?_⟩
    intro n0 i0 c0 h0
    rw [h0] at hres
    injection hres with hres
    injection hres with he1 hres
    injection hres with he2 he3
    rw [he3]
  | cons x t ih =>
    intro acc hok nodes idx cost hres
    rw [List.foldl_cons] at hres
    by_cases hf : calculate_path_energy g h stations (gi_cand node x.2.1 x.2.2) ≤ B ∧
        get_total_demand_path dm (gi_cand node x.2.1 x.2.2) ≤ Q
    · have hfe : gi_feasible g dm stations h Q B node x := ⟨hf.1, hf.2⟩
      have hxok : ∀ n0 i0 c0,
          (some (gi_cand node x.2.1 x.2.2, x.1, calculate_path_cost g (gi_cand node x.2.1 x.2.2))
            : Option (List String × ℕ × ℚ)) = some (n0, i0, c0) →
          c0 = calculate_path_cost g n0 := by
        intro n0 i0 c0 h0
        injection h0 with h0
        injection h0 with he1 h0
        injection h0 with he2 he3
        rw [← he1, ← he3]
      cases hacc : acc with
      | none =>
        rw [hacc] at hres
        have hstep : gi_step g dm stations h Q B node none x =
            some (gi_cand node x.2.1 x.2.2, x.1,
              calculate_path_cost g (gi_cand node x.2.1 x.2.2)) := by
          simp only [gi_step]
          rw [if_pos hf]
        rw [hstep] at hres
        obtain ⟨h1, h2, h3, h4⟩ := ih _ hxok nodes idx cost hres
        refine ⟨h1, ?_, ?_, ?_⟩
        · rcases h2 with h2 | h2
          · injection h2 with h2
            injection h2 with he1 h2
            injection h2 with he2 he3
            exact Or.inr ⟨x, List.mem_cons_self x t, hfe, he1.symm, he2.symm⟩
          · obtain ⟨u, hu, hfu, hnu, hiu⟩ := h2
            exact Or.inr ⟨u, List.mem_cons_of_mem x hu, hfu, hnu, hiu⟩
        · intro u hu hfu
          rcases List.mem_cons.mp hu with rfl | hmem
          · exact h4 _ _ _ rfl
          · exact h3 u hmem hfu
        · intro n0 i0 c0 h0
          exact absurd h0 (by simp)
      | some b =>
        obtain ⟨bn, bi, bc⟩ := b
        rw [hacc] at hres
        by_cases hc : calculate_path_cost g (gi_cand node x.2.1 x.2.2) < bc
        · have hstep : gi_step g dm stations h Q B node (some (bn, bi, bc)) x =
              some (gi_cand node x.2.1 x.2.2, x.1,
                calculate_path_cost g (gi_cand node x.2.1 x.2.2)) := by
            simp only [gi_step]
            rw [if_pos hf]
            simp [hc]
          rw [hstep] at hres
          obtain ⟨h1, h2, h3, h4⟩ := ih _ hxok nodes idx cost hres
          have hbx : cost ≤ calculate_path_cost g (gi_cand node x.2.1 x.2.2) :=
            h4 _ _ _ rfl
          refine ⟨h1, ?_, ?_, ?_⟩
          · rcases h2 with h2 | h2
            · injection h2 with h2
              injection h2 with he1 h2
              injection h2 with he2 he3
              exact Or.inr ⟨x, List.mem_cons_self x t, hfe, he1.symm, he2.symm⟩
            · obtain ⟨u, hu, hfu, hnu, hiu⟩ := h2
              exact Or.inr ⟨u, List.mem_cons_of_mem x hu, hfu, hnu, hiu⟩
          · intro u hu hfu
            rcases List.mem_cons.mp hu with rfl | hmem
            · exact h4 _ _ _ rfl
            · exact h3 u hmem hfu
          · intro n0 i0 c0 h0
            injection h0 with h0
            injection h0 with he1 h0
            injection h0 with he2 he3
            rw [← he3]
            exact le_of_lt (lt_of_le_of_lt hbx hc)
        · have hstep : gi_step g dm stations h Q B node (some (bn, bi, bc)) x =
              some (bn, bi, bc) := by
            simp only [gi_step]
            rw [if_pos hf]
            simp [hc]
          rw [hstep] at hres
          have hok' : ∀ n0 i0 c0,
              (some (bn, bi, bc) : Option (List String × ℕ × ℚ)) = some (n0, i0, c0) →
              c0 = calculate_path_cost g n0 := by
            intro n0 i0 c0 h0
            injection h0 with h0
            injection h0 with he1 h0
            injection h0 with he2 he3
            rw [← he1, ← he3]
            exact hok bn bi bc hacc
          obtain ⟨h1, h2, h3, h4⟩ := ih _ hok' nodes idx cost hres
          have hcbc : cost ≤ bc := h4 bn bi bc rfl
          refine ⟨h1, ?_, ?_, ?_⟩
          · rcases h2 with h2 | h2
            · exact Or.inl (hacc ▸ h2)
            · obtain ⟨u, hu, hfu, hnu, hiu⟩ := h2
              exact Or.inr ⟨u, List.mem_cons_of_mem x hu, hfu, hnu, hiu⟩
          · intro u hu hfu
            rcases List.mem_cons.mp hu with rfl | hmem
            · exact le_trans hcbc (le_of_not_lt hc)
            · exact h3 u hmem hfu
          · intro n0 i0 c0 h0
            injection h0 with h0
            injection h0 with he1 h0
            injection h0 with he2 he3
            rw [← he3]
            exact hcbc
    · have hstep : gi_step g dm stations h Q B node acc x = acc := by
        simp only [gi_step]
        rw [if_neg hf]
      rw [hstep] at hres
      obtain ⟨h1, h2, h3, h4⟩ := ih acc hok nodes idx cost hres
      refine ⟨h1, ?_, ?_, h4⟩
      · rcases h2 with h2 | h2
        · exact Or.inl h2
        · obtain ⟨u, hu, hfu, hnu, hiu⟩ := h2
          exact Or.inr ⟨u, List.mem_cons_of_mem x hu, hfu, hnu, hiu⟩
      · intro u hu hfu
        rcases List.mem_cons.mp hu with rfl | hmem
        · exact absurd hfu (fun hfe => hf ⟨hfe.1, hfe.2⟩)
        · exact h3 u hmem hfu


/-- Structural outcome of `greedy_insertion`: either the stored previous
state, or a state with an empty unassigned list, the same number of routes
as the input, and all routes depot-anchored. -/
lemma greedyInsertionStructure (g : Graph) (dm : Demands) (stations : List String)
    (h : ℚ) (Q : ℤ) (B : ℚ) (s : CevrpState) :
    greedy_insertion g dm stations h Q B s = s.previousState ∨
    ∃ core : StateCore, greedy_insertion g dm stations h Q B s = some core ∧
      core.unassigned = [] ∧ core.paths.length = s.paths.length ∧
      are_paths_depot_constrained core.paths = true := by
  set R := s.unassigned.foldl (greedy_step g dm stations h Q B) (s.paths, []) with hR
  have hval : greedy_insertion g dm stations h Q B s =
      (if are_paths_depot_constrained R.1 ∧ R.2 = [] then some ⟨R.1, R.2⟩
       else s.previousState) := rfl
  by_cases hc : are_paths_depot_constrained R.1 ∧ R.2 = []
  · right
    refine ⟨⟨R.1, R.2⟩, ?_, hc.2, ?_, hc.1⟩
    · rw [hval, if_pos hc]
    · show R.1.length = s.paths.length
      rw [hR]
      exact greedy_foldl_length g dm stations h Q B s.unassigned (s.paths, [])
  · left
    rw [hval, if_neg hc]

/-- C3, amended.  The inner scan of `greedy_insertion` inserts at a
feasible position minimizing the RESULTING ROUTE's total cost: a `some`
result is a feasible candidate from the scanned routes and positions whose
whole-route cost is minimal among all feasible candidates, and `none`
occurs exactly when no candidate is feasible.  The operator itself either
returns the stored previous state, or a state with empty unassigned, the
same number of routes (so no fresh `[depot, customer, depot]` route is
ever created), and depot anchoring throughout. -/
theorem greedyInsertionSpec (g : Graph) (dm : Demands) (stations : List String)
    (h : ℚ) (Q : ℤ) (B : ℚ) (mp : List Path) (node : String) (s : CevrpState) :
    (∀ nodes idx cost,
      greedy_insertion_best g dm stations h Q B mp node = some (nodes, idx, cost) →
        cost = calculate_path_cost g nodes ∧
        (∃ t ∈ gi_items mp, gi_feasible g dm stations h Q B node t ∧
          nodes = gi_cand node t.2.1 t.2.2 ∧ idx = t.1) ∧
        (∀ t ∈ gi_items mp, gi_feasible g dm stations h Q B node t →
          cost ≤ calculate_path_cost g (gi_cand node t.2.1 t.2.2))) ∧
    (greedy_insertion_best g dm stations h Q B mp node = none ↔
      ∀ t ∈ gi_items mp, ¬ gi_feasible g dm stations h Q B node t) ∧
    (greedy_insertion g dm stations h Q B s = s.previousState ∨
      ∃ core : StateCore, greedy_insertion g dm stations h Q B s = some core ∧
        core.unassigned = [] ∧ core.paths.length = s.paths.length ∧
        are_paths_depot_constrained core.paths = true) := by
  refine ⟨?_, ?_, greedyInsertionStructure g dm stations h Q B s⟩
  · intro nodes idx cost hres
    obtain ⟨h1, h2, h3, _⟩ := gi_foldl_some g dm stations h Q B node (gi_items mp) none
      (by simp) nodes idx cost hres
    rcases h2 with h2 | h2
    · exact absurd h2 (by simp)
    · exact ⟨h1, h2, h3⟩
  · unfold greedy_insertion_best
    rw [gi_foldl_none g dm stations h Q B node (gi_items mp) none]
    simp

/-- Route `[1, a, 1]` whose single customer has demand 6. -/
def pC3 : Path := ⟨["1", "a", "1"], 2, 6, 2, true⟩

/-- Demands: both `a` and `c` weigh 6, so they cannot share a `Q = 10`
vehicle, while either alone fits. -/
def dmC3 : Demands := [("a", 6), ("c", 6)]

/-- Unit-cost edges between the depot and both customers. -/
def gC3 : Graph :=
  [(("1", "a"), ce 1), (("a", "1"), ce 1), (("1", "c"), ce 1), (("c", "1"), ce 1),
   (("a", "c"), ce 1), (("c", "a"), ce 1)]

/-- The stored previous state of the C3 instance. -/
def prevC3 : StateCore := ⟨[pC3], ["c"]⟩

/-- Input state: one route `[1, a, 1]` and `c` unassigned. -/
def sC3 : CevrpState := ⟨[pC3], ["c"], some prevC3⟩

/-- Route `[1, x, 1]` with stored cost 100 and route `[1, y, 1]` with
stored cost 2, for the incremental-cost scenario. -/
def pxC3 : Path := ⟨["1", "x", "1"], 100, 1, 100, true⟩

/-- See `pxC3`. -/
def pyC3 : Path := ⟨["1", "y", "1"], 2, 1, 2, true⟩

/-- Unit demands for the incremental-cost scenario. -/
def dmC3b : Demands := [("x", 1), ("y", 1), ("c", 1)]

/-- Costs making the insertion of `c` into `[1, x, 1]` cheap incrementally
(+1) but expensive in total (101), and into `[1, y, 1]` expensive
incrementally (+10) but cheap in total (12). -/
def gC3b : Graph :=
  [(("1", "x"), ce 50), (("x", "1"), ce 50), (("1", "y"), ce 1), (("y", "1"), ce 1),
   (("1", "c"), ce 2), (("c", "1"), ce 2), (("c", "x"), ce 49), (("x", "c"), ce 49),
   (("c", "y"), ce 9), (("y", "c"), ce 9)]

/-- Two-route state with `c` unassigned, for the incremental-cost
scenario. -/
def sC3b : CevrpState := ⟨[pxC3, pyC3], ["c"], none⟩

/-- On the two-route instance the scan settles on inserting `c` into the
cheap route `[1, y, 1]` — the smallest resulting total cost (12), not the
smallest incremental cost. -/
lemma greedy_best_gC3b_eval :
    greedy_insertion_best gC3b dmC3b [] 1 10 1000 [pxC3, pyC3] "c"
      = some (["1", "c", "y", "1"], 1, 12) := by
  have hitems : gi_items [pxC3, pyC3]
      = [(0, pxC3, 1), (0, pxC3, 2), (1, pyC3, 1), (1, pyC3, 2)] := by rfl
  have hnd1 : gi_cand "c" pxC3 1 = ["1", "c", "x", "1"] := by rfl
  have hnd2 : gi_cand "c" pxC3 2 = ["1", "x", "c", "1"] := by rfl
  have hnd3 : gi_cand "c" pyC3 1 = ["1", "c", "y", "1"] := by rfl
  have hnd4 : gi_cand "c" pyC3 2 = ["1", "y", "c", "1"] := by rfl
  have hc1 : calculate_path_cost gC3b ["1", "c", "x", "1"] = 101 := by
    simp [calculate_path_cost]
    simp [get_edge_cost, edgeLookup, gC3b, ce]
    norm_num
  have hc2 : calculate_path_cost gC3b ["1", "x", "c", "1"] = 101 := by
    simp [calculate_path_cost]
    simp [get_edge_cost, edgeLookup, gC3b, ce]
    norm_num
  have hc3 : calculate_path_cost gC3b ["1", "c", "y", "1"] = 12 := by
    simp [calculate_path_cost]
    simp [get_edge_cost, edgeLookup, gC3b, ce]
    norm_num
  have hc4 : calculate_path_cost gC3b ["1", "y", "c", "1"] = 12 := by
    simp [calculate_path_cost]
    simp [get_edge_cost, edgeLookup, gC3b, ce]
    norm_num
  have he1 : calculate_path_energy gC3b 1 [] ["1", "c", "x", "1"] = 101 := by
    simp [calculate_path_energy, cpeAux, calculate_edge_energy_consumption]
    simp [get_edge_cost, edgeLookup, gC3b, ce]
    norm_num
  have he2 : calculate_path_energy gC3b 1 [] ["1", "x", "c", "1"] = 101 := by
    simp [calculate_path_energy, cpeAux, calculate_edge_energy_consumption]
    simp [get_edge_cost, edgeLookup, gC3b, ce]
    norm_num
  have he3 : calculate_path_energy gC3b 1 [] ["1", "c", "y", "1"] = 12 := by
    simp [calculate_path_energy, cpeAux, calculate_edge_energy_consumption]
    simp [get_edge_cost, edgeLookup, gC3b, ce]
    norm_num
  have he4 : calculate_path_energy gC3b 1 [] ["1", "y", "c", "1"] = 12 := by
    simp [calculate_path_energy, cpeAux, calculate_edge_energy_consumption]
    simp [get_edge_cost, edgeLookup, gC3b, ce]
    norm_num
  have hd1 : get_total_demand_path dmC3b ["1", "c", "x", "1"] = 2 := by
    simp [get_total_demand_path, get_demand_node, demandLookup, dmC3b]
  have hd2 : get_total_demand_path dmC3b ["1", "x", "c", "1"] = 2 := by
    simp [get_total_demand_path, get_demand_node, demandLookup, dmC3b]
  have hd3 : get_total_demand_path dmC3b ["1", "c", "y", "1"] = 2 := by
    simp [get_total_demand_path, get_demand_node, demandLookup, dmC3b]
  have hd4 : get_total_demand_path dmC3b ["1", "y", "c", "1"] = 2 := by
    simp [get_total_demand_path, get_demand_node, demandLookup, dmC3b]
  have hs1 : gi_step gC3b dmC3b [] 1 10 1000 "c" none (0, pxC3, 1)
      = some (["1", "c", "x", "1"], 0, 101) := by
    simp only [gi_step, hnd1, hc1, he1, hd1]
    norm_num
  have hs2 : gi_step gC3b dmC3b [] 1 10 1000 "c" (some (["1", "c", "x", "1"], 0, 101))
      (0, pxC3, 2) = some (["1", "c", "x", "1"], 0, 101) := by
    simp only [gi_step, hnd2, hc2, he2, hd2]
    norm_num
  have hs3 : gi_step gC3b dmC3b [] 1 10 1000 "c" (some (["1", "c", "x", "1"], 0, 101))
      (1, pyC3, 1) = some (["1", "c", "y", "1"], 1, 12) := by
    simp only [gi_step, hnd3, hc3, he3, hd3]
    norm_num
  have hs4 : gi_step gC3b dmC3b [] 1 10 1000 "c" (some (["1", "c", "y", "1"], 1, 12))
      (1, pyC3, 2) = some (["1", "c", "y", "1"], 1, 12) := by
    simp only [gi_step, hnd4, hc4, he4, hd4]
    norm_num
  unfold greedy_insertion_best
  rw [hitems]
  simp only [List.foldl_cons, List.foldl_nil, hs1, hs2, hs3, hs4]

/-- Full evaluation of `greedy_insertion` on the two-route instance. -/
lemma greedy_gC3b_eval :
    greedy_insertion gC3b dmC3b [] 1 10 1000 sC3b
      = some ⟨[pxC3, ⟨["1", "c", "y", "1"], 12, 2, 12, true⟩], []⟩ := by
  have he3 : calculate_path_energy gC3b 1 [] ["1", "c", "y", "1"] = 12 := by
    simp [calculate_path_energy, cpeAux, calculate_edge_energy_consumption]
    simp [get_edge_cost, edgeLookup, gC3b, ce]
    norm_num
  have hd3 : get_total_demand_path dmC3b ["1", "c", "y", "1"] = 2 := by
    simp [get_total_demand_path, get_demand_node, demandLookup, dmC3b]
  have hstep : greedy_step gC3b dmC3b [] 1 10 1000 ([pxC3, pyC3], []) "c"
      = ([pxC3, ⟨["1", "c", "y", "1"], 12, 2, 12, true⟩], []) := by
    simp only [greedy_step, greedy_best_gC3b_eval, he3, hd3]
    rfl
  have hfold : sC3b.unassigned.foldl (greedy_step gC3b dmC3b [] 1 10 1000) (sC3b.paths, [])
      = ([pxC3, ⟨["1", "c", "y", "1"], 12, 2, 12, true⟩], []) := by
    show ["c"].foldl (greedy_step gC3b dmC3b [] 1 10 1000) ([pxC3, pyC3], []) = _
    rw [List.foldl_cons, hstep, List.foldl_nil]
  unfold greedy_insertion
  rw [hfold]
  simp [are_paths_depot_constrained, pxC3]

/-- C3, counterexample.  Two failures of the claim on concrete states.
First, inserting `c` into `[1, a, 1]` is capacity-infeasible at every
position and `greedy_insertion` then returns the stored previous state with
`c` still unassigned — it never creates the fresh route `[1, c, 1]` even
though that route would be feasible (`is_path_valid` accepts it).  Second,
on the two-route state `sC3b` the operator inserts `c` into `[1, y, 1]`
(resulting cost 12, incremental cost +10) although the position in
`[1, x, 1]` has the lowest incremental cost (+1, resulting cost 101), so
the selection is not by lowest incremental cost. -/
theorem c3Counterexample :
    greedy_insertion gC3 dmC3 [] 1 10 100 sC3 = sC3.previousState ∧
    sC3.previousState = some prevC3 ∧
    (∀ p ∈ prevC3.paths, p.nodes ≠ ["1", "c", "1"]) ∧
    "c" ∈ prevC3.unassigned ∧
    is_path_valid gC3 dmC3 [] 10 100 1 ["1", "c", "1"] = true ∧
    greedy_insertion gC3b dmC3b [] 1 10 1000 sC3b
      = some ⟨[pxC3, ⟨["1", "c", "y", "1"], 12, 2, 12, true⟩], []⟩ ∧
    calculate_path_cost gC3b ["1", "c", "x", "1"]
      - calculate_path_cost gC3b ["1", "x", "1"] = 1 ∧
    calculate_path_cost gC3b ["1", "c", "y", "1"]
      - calculate_path_cost gC3b ["1", "y", "1"] = 10 := by
  have hbest : greedy_insertion_best gC3 dmC3 [] 1 10 100 [pC3] "c" = none := by
    simp [greedy_insertion_best, gi_items, gi_step, gi_cand, List.range',
      get_total_demand_path, get_demand_node, demandLookup, gC3, dmC3, pC3, ce]
  have hfold : ["c"].foldl (greedy_step gC3 dmC3 [] 1 10 100) ([pC3], []) = ([pC3], ["c"]) := by
    simp [greedy_step, hbest]
  refine ⟨?_, rfl, ?_, by simp [prevC3], ?_, greedy_gC3b_eval, ?_, ?_⟩
  · show greedy_insertion gC3 dmC3 [] 1 10 100 sC3 = sC3.previousState
    unfold greedy_insertion
    have : sC3.unassigned.foldl (greedy_step gC3 dmC3 [] 1 10 100) (sC3.paths, [])
        = ([pC3], ["c"]) := hfold
    rw [this]
    simp
  · intro p hp
    simp [prevC3, pC3] at hp
    rw [hp]
    simp [pC3]
  · simp [is_path_valid, get_total_demand_path, get_demand_node, demandLookup, dmC3,
      calculate_path_energy, cpeAux, calculate_edge_energy_consumption, get_edge_cost,
      edgeLookup, gC3, ce]
    norm_num
  · have hcx : calculate_path_cost gC3b ["1", "c", "x", "1"] = 101 := by
      simp [calculate_path_cost]
      simp [get_edge_cost, edgeLookup, gC3b, ce]
      norm_num
    have hx : calculate_path_cost gC3b ["1", "x", "1"] = 100 := by
      simp [calculate_path_cost]
      simp [get_edge_cost, edgeLookup, gC3b, ce]
      norm_num
    rw [hcx, hx]
    norm_num
  · have hcy : calculate_path_cost gC3b ["1", "c", "y", "1"] = 12 := by
      simp [calculate_path_cost]
      simp [get_edge_cost, edgeLookup, gC3b, ce]
      norm_num
    have hy : calculate_path_cost gC3b ["1", "y", "1"] = 2 := by
      simp [calculate_path_cost]
      simp [get_edge_cost, edgeLookup, gC3b, ce]
      norm_num
    rw [hcy, hy]
    norm_num

/-- C3, witness for the amended theorem: the minimization characterization
instantiated on the two-route instance, certifying the chosen insertion
`[1, c, y, 1]` (cost 12) as a feasible candidate of minimal resulting
route cost. -/
theorem c3Witness :
    (12 : ℚ) = calculate_path_cost gC3b ["1", "c", "y", "1"] ∧
    (∃ t ∈ gi_items [pxC3, pyC3], gi_feasible gC3b dmC3b [] 1 10 1000 "c" t ∧
      ["1", "c", "y", "1"] = gi_cand "c" t.2.1 t.2.2 ∧ 1 = t.1) ∧
    (∀ t ∈ gi_items [pxC3, pyC3], gi_feasible gC3b dmC3b [] 1 10 1000 "c" t →
      (12 : ℚ) ≤ calculate_path_cost gC3b (gi_cand "c" t.2.1 t.2.2)) :=
  (greedyInsertionSpec gC3b dmC3b [] 1 10 1000 [pxC3, pyC3] "c" sC3b).1
    ["1", "c", "y", "1"] 1 12 greedy_best_gC3b_eval

/-! ### Worst removal (`ALNS_METAHEURISTIC/destroy_operators.py`) -/

/-- The candidate list of `worst_removal`: for each route (by index) and
each interior position `i in range(1, len(nodes) - 1)`, the node there, the
savings `path.path_cost - cost(nodes[:i] + nodes[i+1:])` (stored cost minus
recomputed cost after removal), and the route index. -/
def worst_removal_candidates (g : Graph) (paths : List Path) :
    List (String × ℚ × ℕ) :=
  paths.enum.flatMap (fun rip =>
    (List.range' 1 (rip.2.nodes.length - 2)).map (fun i =>
      let new_path := rip.2.nodes.take i ++ rip.2.nodes.drop (i + 1)
      (rip.2.nodes.getD i "", rip.2.path_cost - calculate_path_cost g new_path, rip.1)))

/-- The displaced pairs of `worst_removal`: sort the candidates by
descending savings (Python's stable `sort(..., reverse=True)`) and take the
top `int(len * 0.2)` of them (`0.2` by default; the float truncation equals
`len / 5` on these magnitudes). -/
def worst_removal_displaced (g : Graph) (paths : List Path) : List (String × ℕ) :=
  let candidates := worst_removal_candidates g paths
  ((sortByDesc (fun c => c.2.1) candidates).take (candidates.length / 5)).map
    (fun c => (c.1, c.2.2))

/-- `worst_removal`: rebuild each route without its displaced nodes unless
that breaks energy feasibility (then the original route is kept), append
every displaced node to `unassigned`, and store the incoming state as the
previous state. -/
def worst_removal (g : Graph) (dm : Demands) (stations : List String)
    (h B : ℚ) (s : CevrpState) : CevrpState :=
  let nodes_to_remove := worst_removal_displaced g s.paths
  ⟨s.paths.enum.map (fun rip =>
      let new_nodes := rip.2.nodes.filter (fun n => decide ((n, rip.1) ∉ nodes_to_remove))
      let new_energy := calculate_path_energy g h stations new_nodes
      if new_energy > B then rip.2
      else ⟨new_nodes, calculate_path_cost g new_nodes,
        get_total_demand_path dm new_nodes, new_energy, true⟩),
   s.unassigned ++ nodes_to_remove.map Prod.fst,
   some ⟨s.paths, s.unassigned⟩⟩

/-- The specification's concrete route `[1, A, B, C, 1]` with stored cost
12. -/
def pC7 : Path := ⟨["1", "A", "B", "C", "1"], 12, 0, 12, true⟩

/-- The specification's symmetric costs: 1-A=5, A-B=1, B-C=1, C-1=5,
1-B=5, A-C=5. -/
def gC7 : Graph :=
  [(("1", "A"), ce 5), (("A", "1"), ce 5), (("A", "B"), ce 1), (("B", "A"), ce 1),
   (("B", "C"), ce 1), (("C", "B"), ce 1), (("C", "1"), ce 5), (("1", "C"), ce 5),
   (("1", "B"), ce 5), (("B", "1"), ce 5), (("A", "C"), ce 5), (("C", "A"), ce 5)]

/-- State holding only the concrete route. -/
def sC7 : CevrpState := ⟨[pC7], [], none⟩

/-- Savings on the concrete route: removing A yields +1, removing B
yields -3, removing C yields +1. -/
lemma c7_candidates_eval :
    worst_removal_candidates gC7 [pC7] = [("A", 1, 0), ("B", -3, 0), ("C", 1, 0)] := by
  simp [worst_removal_candidates, List.range', pC7, calculate_path_cost]
  simp [get_edge_cost, edgeLookup, gC7, ce]
  norm_num

/-- Stable descending sort puts A first among the two +1 candidates. -/
lemma c7_sorted_eval :
    sortByDesc (fun c : String × ℚ × ℕ => c.2.1)
      [("A", 1, 0), ("B", -3, 0), ("C", 1, 0)] =
      [("A", 1, 0), ("C", 1, 0), ("B", -3, 0)] := by
  norm_num [sortByDesc, insertByDesc]

/-- The top-20% count of three candidates is `int(0.6) = 0`, so nothing is
displaced. -/
lemma c7_displaced_eval : worst_removal_displaced gC7 [pC7] = [] := by
  simp only [worst_removal_displaced]
  rw [c7_candidates_eval, c7_sorted_eval]
  rfl

/-- Full evaluation of `worst_removal` on the concrete state. -/
lemma c7_wr_eval :
    worst_removal gC7 [] [] 1 1000 sC7 = ⟨[pC7], [], some ⟨[pC7], []⟩⟩ := by
  have henergy : calculate_path_energy gC7 1 [] ["1", "A", "B", "C", "1"] = 12 := by
    simp [calculate_path_energy, cpeAux, calculate_edge_energy_consumption]
    simp [get_edge_cost, edgeLookup, gC7, ce]
    norm_num
  have hcost : calculate_path_cost gC7 ["1", "A", "B", "C", "1"] = 12 := by
    simp [calculate_path_cost]
    simp [get_edge_cost, edgeLookup, gC7, ce]
    norm_num
  simp only [worst_removal, c7_displaced_eval, sC7]
  simp [pC7, henergy, hcost]
  norm_num [get_total_demand_path, get_demand_node, demandLookup]

/-- C7, counterexample.  On the specification's own route, `worst_removal`
displaces nothing at all — `unassigned` stays empty and the route is
unchanged — so "A ... is displaced first" is false. -/
theorem c7Counterexample :
    (worst_removal gC7 [] [] 1 1000 sC7).unassigned = [] ∧
    (worst_removal gC7 [] [] 1 1000 sC7).paths = [pC7] := by
  rw [c7_wr_eval]
  exact ⟨rfl, rfl⟩

/-- C7, amended.  The savings are computed and sorted exactly as claimed
(A sorts first with savings +1, B has -3), but only the top
`int(0.2 * len)` candidates are displaced; with three candidates that count
is 0, so on this route no node (in particular not A) is displaced. -/
theorem c7Amended :
    worst_removal_candidates gC7 [pC7] = [("A", 1, 0), ("B", -3, 0), ("C", 1, 0)] ∧
    sortByDesc (fun c : String × ℚ × ℕ => c.2.1) (worst_removal_candidates gC7 [pC7]) =
      [("A", 1, 0), ("C", 1, 0), ("B", -3, 0)] ∧
    (worst_removal_candidates gC7 [pC7]).length / 5 = 0 ∧
    worst_removal_displaced gC7 [pC7] = [] ∧
    (worst_removal gC7 [] [] 1 1000 sC7).paths = sC7.paths := by
  refine ⟨c7_candidates_eval, ?_, ?_, c7_displaced_eval, ?_⟩
  · rw [c7_candidates_eval, c7_sorted_eval]
  · rw [c7_candidates_eval]
    rfl
  · rw [c7_wr_eval]
    rfl



/-! ### Deep clone independence (`CevrpState.copy`, `Path.copy`) -/

/-- Python object identity is modelled with an explicit heap: `Path`
objects and unassigned lists live in indexed cells, a state holds
references, `Path.copy`/`copy.deepcopy` allocate fresh cells with equal
contents, and mutation writes through a reference. -/
def defaultPath : Path := ⟨[], 0, 0, 0, false⟩

structure Heap where
  pathCells : List Path
  listCells : List (List String)
deriving DecidableEq

structure StateRef where
  pathRefs : List ℕ
  unassignedRef : ℕ
deriving DecidableEq

def readPath (σ : Heap) (r : ℕ) : Path := σ.pathCells.getD r defaultPath

def readList (σ : Heap) (r : ℕ) : List String := σ.listCells.getD r []

def routesOf (σ : Heap) (s : StateRef) : List Path := s.pathRefs.map (readPath σ)

def unassignedOf (σ : Heap) (s : StateRef) : List String := readList σ s.unassignedRef

def objective (σ : Heap) (s : StateRef) : ℚ :=
  ((routesOf σ s).map Path.path_cost).sum

def copyState (σ : Heap) (s : StateRef) : Heap × StateRef :=
  let base := σ.pathCells.length
  let newCells := s.pathRefs.map (readPath σ)
  (⟨σ.pathCells ++ newCells, σ.listCells ++ [readList σ s.unassignedRef]⟩,
   ⟨(List.range s.pathRefs.length).map (fun i => base + i), σ.listCells.length⟩)

def writePath (σ : Heap) (r : ℕ) (f : Path → Path) : Heap :=
  ⟨σ.pathCells.set r (f (readPath σ r)), σ.listCells⟩

def writeList (σ : Heap) (r : ℕ) (xs : List String) : Heap :=
  ⟨σ.pathCells, σ.listCells.set r xs⟩

def WF (σ : Heap) (s : StateRef) : Prop :=
  (∀ r ∈ s.pathRefs, r < σ.pathCells.length) ∧ s.unassignedRef < σ.listCells.length

lemma getD_append_lt {α : Type} (l l' : List α) (d : α) (n : ℕ) (h : n < l.length) :
    (l ++ l').getD n d = l.getD n d := by
  simp [List.getD, List.getElem?_append_left h]

lemma getD_append_add {α : Type} (l l' : List α) (d : α) (n : ℕ) :
    (l ++ l').getD (l.length + n) d = l'.getD n d := by
  simp [List.getD, List.getElem?_append_right (Nat.le_add_right l.length n)]

lemma getD_set_ne {α : Type} (l : List α) (d v : α) (i n : ℕ) (h : i ≠ n) :
    (l.set i v).getD n d = l.getD n d := by
  simp [List.getD, List.getElem?_set_ne h]

lemma range_map_getD {α : Type} (d : α) : ∀ l : List α,
    (List.range l.length).map (fun i => l.getD i d) = l := by
  intro l
  induction l with
  | nil => rfl
  | cons a t ih =>
    rw [List.length_cons, List.range_succ_eq_map]
    simp only [List.map_cons, List.map_map]
    rw [show ((fun i => (a :: t).getD i d) ∘ Nat.succ) = fun i => t.getD i d from rfl]
    rw [ih]
    rfl

/-- Reads of old cells are unchanged by the clone's allocations. -/
lemma readPath_copy (σ : Heap) (s : StateRef) (q : ℕ) (hq : q < σ.pathCells.length) :
    readPath (copyState σ s).1 q = readPath σ q := by
  simp only [copyState, readPath]
  exact getD_append_lt _ _ _ _ hq

lemma readList_copy (σ : Heap) (s : StateRef) (q : ℕ) (hq : q < σ.listCells.length) :
    readList (copyState σ s).1 q = readList σ q := by
  simp only [copyState, readList]
  exact getD_append_lt _ _ _ _ hq

/-- C8.  `CevrpState.copy` deep-copies the route objects and the
unassigned list while sharing the graph and instance: the clone has the
same objective, routes and unassigned list as the original, and mutating
any of the clone's route cells, or the clone's unassigned cell, leaves the
original state's routes, unassigned list and objective unchanged. -/
theorem cloneIndependence (σ : Heap) (s : StateRef) (hwf : WF σ s)
    (r : ℕ) (hr : r ∈ (copyState σ s).2.pathRefs) (f : Path → Path) (xs : List String) :
    objective (copyState σ s).1 (copyState σ s).2 = objective σ s ∧
    routesOf (copyState σ s).1 (copyState σ s).2 = routesOf σ s ∧
    unassignedOf (copyState σ s).1 (copyState σ s).2 = unassignedOf σ s ∧
    routesOf (writePath (copyState σ s).1 r f) s = routesOf σ s ∧
    unassignedOf (writePath (copyState σ s).1 r f) s = unassignedOf σ s ∧
    objective (writePath (copyState σ s).1 r f) s = objective σ s ∧
    routesOf (writeList (copyState σ s).1 (copyState σ s).2.unassignedRef xs) s
      = routesOf σ s ∧
    unassignedOf (writeList (copyState σ s).1 (copyState σ s).2.unassignedRef xs) s
      = unassignedOf σ s ∧
    objective (writeList (copyState σ s).1 (copyState σ s).2.unassignedRef xs) s
      = objective σ s := by
  obtain ⟨hpaths, hun⟩ := hwf
  -- the clone's route reads reproduce the original routes
  have hcloneRoutes : routesOf (copyState σ s).1 (copyState σ s).2 = routesOf σ s := by
    simp only [routesOf, copyState, List.map_map]
    have hstep : ∀ i, (readPath ⟨σ.pathCells ++ s.pathRefs.map (readPath σ),
        σ.listCells ++ [readList σ s.unassignedRef]⟩ ∘ fun i => σ.pathCells.length + i) i
        = (s.pathRefs.map (readPath σ)).getD i defaultPath := by
      intro i
      simp only [Function.comp, readPath]
      exact getD_append_add _ _ _ _
    rw [List.map_congr_left (fun i _ => hstep i)]
    have hlen : s.pathRefs.length = (s.pathRefs.map (readPath σ)).length := by simp
    rw [hlen, range_map_getD]
  have happend_self : ∀ (l : List (List String)) (x : List String),
      (l ++ [x]).getD l.length [] = x := by
    intro l x
    have h0 := getD_append_add l [x] [] 0
    rw [Nat.add_zero] at h0
    exact h0
  have hcloneUn : unassignedOf (copyState σ s).1 (copyState σ s).2 = unassignedOf σ s := by
    simp only [unassignedOf, copyState, readList]
    exact happend_self σ.listCells (σ.listCells.getD s.unassignedRef [])
  -- the fresh route cells all sit at or above the old heap's size
  have hrge : σ.pathCells.length ≤ r := by
    simp only [copyState, List.mem_map, List.mem_range] at hr
    obtain ⟨i, _, hi⟩ := hr
    omega
  -- reads of the original state are untouched by a write to a clone cell
  have hreadW : ∀ q ∈ s.pathRefs, readPath (writePath (copyState σ s).1 r f) q = readPath σ q := by
    intro q hq
    have hqlt : q < σ.pathCells.length := hpaths q hq
    have hne : r ≠ q := by omega
    simp only [writePath, readPath, copyState]
    rw [getD_set_ne _ _ _ _ _ hne]
    exact getD_append_lt _ _ _ _ hqlt
  have hreadO : ∀ q ∈ s.pathRefs, readPath (copyState σ s).1 q = readPath σ q := by
    intro q hq
    exact readPath_copy σ s q (hpaths q hq)
  have hroutesW : routesOf (writePath (copyState σ s).1 r f) s = routesOf σ s := by
    simp only [routesOf]
    exact List.map_congr_left hreadW
  have hunW : unassignedOf (writePath (copyState σ s).1 r f) s = unassignedOf σ s := by
    simp only [unassignedOf, writePath, readList, copyState]
    exact getD_append_lt _ _ _ _ hun
  have hroutesL : routesOf (writeList (copyState σ s).1 (copyState σ s).2.unassignedRef xs) s
      = routesOf σ s := by
    simp only [routesOf, writeList, readPath, copyState]
    apply List.map_congr_left
    intro q hq
    show (σ.pathCells ++ s.pathRefs.map (readPath σ)).getD q defaultPath = readPath σ q
    exact getD_append_lt _ _ _ _ (hpaths q hq)
  have hunL : unassignedOf (writeList (copyState σ s).1 (copyState σ s).2.unassignedRef xs) s
      = unassignedOf σ s := by
    simp only [unassignedOf, writeList, readList, copyState]
    rw [getD_set_ne _ _ _ _ _ (by omega)]
    exact getD_append_lt _ _ _ _ hun
  refine ⟨?_, hcloneRoutes, hcloneUn, hroutesW, hunW, ?_, hroutesL, hunL, ?_⟩
  · simp only [objective, hcloneRoutes]
  · simp only [objective, hroutesW]
  · simp only [objective, hroutesL]


/-- Heap with one route cell and one unassigned cell, for the C8 witness. -/
def heapC8 : Heap := ⟨[⟨["1", "a", "1"], 7, 1, 2, true⟩], [["c"]]⟩

/-- State referencing the single route and the single unassigned list. -/
def refC8 : StateRef := ⟨[0], 0⟩

/-- C8, witness: on the one-route heap, writing the clone's freshly
allocated cells (route cell 1 and unassigned cell 1) leaves every
observation of the original state unchanged. -/
theorem c8Witness :
    objective (copyState heapC8 refC8).1 (copyState heapC8 refC8).2
      = objective heapC8 refC8 ∧
    routesOf (copyState heapC8 refC8).1 (copyState heapC8 refC8).2
      = routesOf heapC8 refC8 ∧
    unassignedOf (copyState heapC8 refC8).1 (copyState heapC8 refC8).2
      = unassignedOf heapC8 refC8 ∧
    routesOf (writePath (copyState heapC8 refC8).1 1 (fun _ => defaultPath)) refC8
      = routesOf heapC8 refC8 ∧
    unassignedOf (writePath (copyState heapC8 refC8).1 1 (fun _ => defaultPath)) refC8
      = unassignedOf heapC8 refC8 ∧
    objective (writePath (copyState heapC8 refC8).1 1 (fun _ => defaultPath)) refC8
      = objective heapC8 refC8 ∧
    routesOf (writeList (copyState heapC8 refC8).1 (copyState heapC8 refC8).2.unassignedRef
      ["x"]) refC8 = routesOf heapC8 refC8 ∧
    unassignedOf (writeList (copyState heapC8 refC8).1
      (copyState heapC8 refC8).2.unassignedRef ["x"]) refC8 = unassignedOf heapC8 refC8 ∧
    objective (writeList (copyState heapC8 refC8).1 (copyState heapC8 refC8).2.unassignedRef
      ["x"]) refC8 = objective heapC8 refC8 :=
  cloneIndependence heapC8 refC8
    ⟨by intro r hr; simp [refC8] at hr; simp [hr, heapC8], by simp [heapC8, refC8]⟩
    1 (by simp [copyState, heapC8, refC8]) (fun _ => defaultPath) ["x"]

end CEVRP
